import Mathlib

/-!
Verification of the Sherlock investigation pipeline against its specification.

The Python source is shallowly embedded: machine floats are modelled as exact
rationals (ℚ), Python dicts as association lists with insertion-order
semantics, Python strings as Lean `String`/`List Char` compared by code
point, and Python's `round` (banker's rounding) as an explicit
round-half-to-even on ℚ.  External capabilities (spaCy, regex engines,
vector stores, the file system) are abstracted as function parameters; every
piece of pure decision logic is translated line by line from the source.
-/

namespace Sherlock

/-- Round half to even on ℚ, modelling Python's `round` tie rule on exact
rationals. -/
def rhe (x : ℚ) : ℤ :=
  let f := ⌊x⌋
  let r := x - f
  if r < 1/2 then f
  else if (1 : ℚ)/2 < r then f + 1
  else if 2 ∣ f then f else f + 1

/-- `round(x, 2)` on exact rationals. -/
def round2 (x : ℚ) : ℚ := rhe (x * 100) / 100

/-- `round(x, 4)` on exact rationals. -/
def round4 (x : ℚ) : ℚ := rhe (x * 10000) / 10000

/-- If `x * 100` is an integer then rounding to two decimals is the
identity. -/
theorem round2_eq_self {x : ℚ} (h : ∃ k : ℤ, x * 100 = k) : round2 x = x := by
  obtain ⟨k, hk⟩ := h
  have hfl : ⌊x * 100⌋ = k := by rw [hk]; exact Int.floor_intCast k
  have : rhe (x * 100) = k := by
    unfold rhe
    simp only [hfl, hk]
    norm_num
  rw [round2, this]
  have h100 : (100 : ℚ) ≠ 0 := by norm_num
  field_simp
  linarith [hk]

/-- `rhe` never moves a value by more than 1/2. -/
theorem rhe_le (x : ℚ) : x - 1/2 ≤ (rhe x : ℚ) := by
  simp only [rhe]
  have hfl := Int.sub_one_lt_floor x
  have hfl2 := Int.floor_le x
  split_ifs with h1 h2 h3 <;> push_cast <;> linarith

/-- Characters are compared by code point (as Python compares strings). -/
def lexLeB : List Char → List Char → Bool
  | [], _ => true
  | _ :: _, [] => false
  | a :: as, b :: bs =>
    if a.toNat < b.toNat then true
    else if b.toNat < a.toNat then false
    else lexLeB as bs

/-- Python string `<=`, modelled on the code-point sequences. -/
def pyStrLe (a b : String) : Bool := lexLeB a.data b.data

/-- Python string `<` (strict). -/
def pyStrLt (a b : String) : Bool := pyStrLe a b && !(a == b)

/-- Python substring containment `needle in hay` on code-point lists. -/
def containsSubL (hay needle : List Char) : Bool :=
  hay.tails.any (fun t => needle.isPrefixOf t)

/-- Python `needle in hay` for strings. -/
def containsSub (hay needle : String) : Bool := containsSubL hay.data needle.data

/-- Python `s[:n]` (slicing by code points). -/
def strTake (s : String) (n : Nat) : String := ⟨s.data.take n⟩

/-- ASCII lower-casing, modelling `str.lower` on the ASCII fragment the
keyword tables use (non-ASCII characters in the sources are already
lower-case). -/
def pyLowerChar (c : Char) : Char :=
  if 'A' ≤ c ∧ c ≤ 'Z' then Char.ofNat (c.toNat + 32) else c

/-- Python `s.lower()`. -/
def pyLower (s : String) : String := ⟨s.data.map pyLowerChar⟩

/-- `lexLeB` is total. -/
theorem lexLeB_total : ∀ a b : List Char, lexLeB a b = true ∨ lexLeB b a = true := by
  intro a
  induction a with
  | nil => intro b; left; rfl
  | cons x xs ih =>
    intro b
    cases b with
    | nil => right; rfl
    | cons y ys =>
      by_cases hxy : x.toNat < y.toNat
      · left; simp [lexLeB, hxy]
      · by_cases hyx : y.toNat < x.toNat
        · right; simp [lexLeB, hyx]
        · rcases ih ys with h | h
          · left; simp [lexLeB, hxy, hyx, h]
          · right; simp [lexLeB, hyx, hxy, h]

/-- `lexLeB` is transitive. -/
theorem lexLeB_trans :
    ∀ a b c : List Char, lexLeB a b = true → lexLeB b c = true → lexLeB a c = true := by
  intro a
  induction a with
  | nil => intro b c _ _; rfl
  | cons x xs ih =>
    intro b c hab hbc
    cases b with
    | nil => simp [lexLeB] at hab
    | cons y ys =>
      cases c with
      | nil => simp [lexLeB] at hbc
      | cons z zs =>
        simp only [lexLeB] at hab hbc ⊢
        by_cases hxy : x.toNat < y.toNat
        · by_cases hyz : y.toNat < z.toNat
          · have : x.toNat < z.toNat := lt_trans hxy hyz
            simp [this]
          · by_cases hzy : z.toNat < y.toNat
            · simp [hyz, hzy] at hbc
            · have hyz' : y.toNat = z.toNat := le_antisymm (not_lt.mp hzy) (not_lt.mp hyz)
              have : x.toNat < z.toNat := hyz' ▸ hxy
              simp [this]
        · by_cases hyx : y.toNat < x.toNat
          · simp [hxy, hyx] at hab
          · have hxy' : x.toNat = y.toNat := le_antisymm (not_lt.mp hyx) (not_lt.mp hxy)
            by_cases hyz : y.toNat < z.toNat
            · have : x.toNat < z.toNat := hxy' ▸ hyz
              simp [this]
            · by_cases hzy : z.toNat < y.toNat
              · simp [hyz, hzy] at hbc
              · have hyz' : y.toNat = z.toNat := le_antisymm (not_lt.mp hzy) (not_lt.mp hyz)
                have h1 : ¬ x.toNat < z.toNat := by rw [hxy', hyz']; exact lt_irrefl _
                have h2 : ¬ z.toNat < x.toNat := by rw [hxy', hyz']; exact lt_irrefl _
                simp only [if_neg hxy, if_neg hyx] at hab
                simp only [if_neg hyz, if_neg hzy] at hbc
                simp only [if_neg h1, if_neg h2]
                exact ih ys zs hab hbc

/-! ## Compliance gate (ODOS Guardian): claims C1 and C8

Embedding of `src/agents/odos_guardian.py` (`process`, lines 53–80 and the
exception handler, lines 108–119).  Metrics are exact rationals; the
`f"..."` formatting of the BLOCKED recommendations is modelled with
`toString`, since no claim inspects those strings. -/

/-- `OdosStatus` from `src/pqms/odos.py`. -/
inductive OStatus
  | VALID
  | NEEDS_REVIEW
  | BLOCKED
  deriving DecidableEq, Repr

/-- `.value` of an `OdosStatus`. -/
def OStatus.toStr : OStatus → String
  | .VALID => "VALID"
  | .NEEDS_REVIEW => "NEEDS_REVIEW"
  | .BLOCKED => "BLOCKED"

/-- The part of `compliance_report` the decision writes. -/
structure CrDecision where
  overall_status : String
  recommendations : List String
  final_status : String
  deriving DecidableEq, Repr

/-- Threshold constants of `src/agents/odos_guardian.py`, lines 15–19. -/
def MAX_DELTA_E_VALID : ℚ := 0.05

def MIN_FIDELITY_VALID : ℚ := 0.99

def MAX_DELTA_E_REVIEW : ℚ := 0.1

def MIN_FIDELITY_REVIEW : ℚ := 0.95

def MIN_RCF : ℚ := 0.95

/-- The metric-threshold branch of the decision (`odos_guardian.py`,
lines 59–73): VALID / NEEDS_REVIEW / BLOCKED from ΔE, fidelity, RCF. -/
def metricsDecide (delta_e fidelity rcf : ℚ) : CrDecision :=
  if delta_e < MAX_DELTA_E_VALID ∧ fidelity ≥ MIN_FIDELITY_VALID ∧ rcf ≥ MIN_RCF then
    ⟨"VALID", [], "VALID"⟩
  else if delta_e < MAX_DELTA_E_REVIEW ∧ fidelity ≥ MIN_FIDELITY_REVIEW then
    ⟨"NEEDS_REVIEW", ["Human review recommended: delta_e or fidelity near threshold."],
      "NEEDS_REVIEW"⟩
  else
    ⟨"BLOCKED",
      ["Delta-E " ++ toString delta_e ++ " or fidelity " ++ toString fidelity ++
         " below threshold.",
       "Improve evidence backing or reduce contradictions before publishing."],
      "BLOCKED"⟩

/-- The full decision (`odos_guardian.py`, lines 54–77): ODOS BLOCKED
overrides; otherwise the metric branch, downgraded to NEEDS_REVIEW with the
ODOS message prepended when ODOS said NEEDS_REVIEW but metrics said VALID. -/
def odosDecide (ostat : OStatus) (omessage : String) (delta_e fidelity rcf : ℚ) :
    CrDecision :=
  if ostat = OStatus.BLOCKED then
    ⟨"BLOCKED", ["Resolve critical ODOS violations (e.g. PII) before publishing."],
      "BLOCKED"⟩
  else
    let m := metricsDecide delta_e fidelity rcf
    if ostat = OStatus.NEEDS_REVIEW ∧ m.final_status = "VALID" then
      ⟨"NEEDS_REVIEW", omessage :: m.recommendations, "NEEDS_REVIEW"⟩
    else m

/-- C1: ODOS BLOCKED forces BLOCKED; otherwise the decision table on the
metric thresholds decides VALID / NEEDS_REVIEW / BLOCKED; and an ODOS
NEEDS_REVIEW result downgrades a metric VALID to NEEDS_REVIEW with the ODOS
message prepended to the recommendations list. -/
theorem c1_compliance_decision (ostat : OStatus) (omessage : String)
    (delta_e fidelity rcf : ℚ) :
    (ostat = OStatus.BLOCKED →
      (odosDecide ostat omessage delta_e fidelity rcf).overall_status = "BLOCKED") ∧
    (ostat ≠ OStatus.BLOCKED →
      (odosDecide ostat omessage delta_e fidelity rcf).overall_status =
        (if delta_e < 0.05 ∧ fidelity ≥ 0.99 ∧ rcf ≥ 0.95 then
          (if ostat = OStatus.NEEDS_REVIEW then "NEEDS_REVIEW" else "VALID")
        else if delta_e < 0.1 ∧ fidelity ≥ 0.95 then "NEEDS_REVIEW"
        else "BLOCKED")) ∧
    (ostat = OStatus.NEEDS_REVIEW → delta_e < 0.05 → fidelity ≥ 0.99 → rcf ≥ 0.95 →
      (odosDecide ostat omessage delta_e fidelity rcf).overall_status = "NEEDS_REVIEW" ∧
      (odosDecide ostat omessage delta_e fidelity rcf).recommendations =
        omessage :: (metricsDecide delta_e fidelity rcf).recommendations) := by
  unfold odosDecide metricsDecide
  unfold MAX_DELTA_E_VALID MIN_FIDELITY_VALID MAX_DELTA_E_REVIEW MIN_FIDELITY_REVIEW MIN_RCF
  refine ⟨fun hb => ?_, fun hnb => ?_, fun hnr h1 h2 h3 => ?_⟩
  · simp [hb]
  · by_cases hv : delta_e < 0.05 ∧ fidelity ≥ 0.99 ∧ rcf ≥ 0.95
    · cases ostat with
      | VALID => simp [hv]
      | NEEDS_REVIEW => simp [hv]
      | BLOCKED => exact absurd rfl hnb
    · by_cases hr : delta_e < 0.1 ∧ fidelity ≥ 0.95
      · cases ostat with
        | VALID => simp [hv, hr]
        | NEEDS_REVIEW => simp [hv, hr]
        | BLOCKED => exact absurd rfl hnb
      · cases ostat with
        | VALID => simp [hv, hr]
        | NEEDS_REVIEW => simp [hv, hr]
        | BLOCKED => exact absurd rfl hnb
  · subst hnr
    constructor <;> simp [h1, h2, h3]

/-- Witness for C1 at concrete metrics: ODOS NEEDS_REVIEW with thresholds in
the VALID band is downgraded and the message is prepended. -/
theorem c1_compliance_decision_witness :
    (odosDecide OStatus.NEEDS_REVIEW "odos says review" 0 1 1).overall_status =
      "NEEDS_REVIEW" ∧
    (odosDecide OStatus.NEEDS_REVIEW "odos says review" 0 1 1).recommendations =
      "odos says review" :: (metricsDecide 0 1 1).recommendations := by
  exact (c1_compliance_decision OStatus.NEEDS_REVIEW "odos says review" 0 1 1).2.2
    rfl (by norm_num) (by norm_num) (by norm_num)

/-- The guardian-stage state fields written by the exception handler of
`odos_guardian.py` (lines 108–119). -/
structure GuardErrSt where
  error_log : List String
  odos_status : String
  delta_e : ℚ
  guardian_delta_e : ℚ
  fidelity : ℚ
  rcf : ℚ
  cr_overall : String
  cr_recommendations : List String
  deriving DecidableEq, Repr

/-- The `except` branch of `odos_guardian.process` (lines 108–119): append to
the error log, force NEEDS_REVIEW, set `delta_e = guardian_delta_e = 0.1`,
`fidelity = rcf = 0.0`, and replace the recommendations with the exception
message. -/
def odosOnError (st : GuardErrSt) (emsg : String) : GuardErrSt :=
  { st with
    error_log := st.error_log ++ ["ODOS Guardian error: " ++ emsg]
    odos_status := "NEEDS_REVIEW"
    delta_e := 0.1
    guardian_delta_e := 0.1
    fidelity := 0.0
    rcf := 0.0
    cr_overall := "NEEDS_REVIEW"
    cr_recommendations := [emsg] }

/-- C8 counterexample: on an exception the code sets `delta_e` to 0.1, not to
zero, so "all three metrics set to zero" fails. -/
theorem c8_counterexample :
    (odosOnError ⟨[], "", 0, 0, 1, 1, "", []⟩ "boom").delta_e = 1/10 ∧
    ((1 : ℚ)/10 ≠ 0) := by
  constructor
  · norm_num [odosOnError]
  · norm_num

/-- C8 amended: on any exception in the compliance gate the state is returned
with overall status NEEDS_REVIEW, fidelity and RCF zeroed, `delta_e` (and
`guardian_delta_e`) set to 0.1, and the exception message as the
recommendations list. -/
theorem c8_error_handler (st : GuardErrSt) (emsg : String) :
    (odosOnError st emsg).cr_overall = "NEEDS_REVIEW" ∧
    (odosOnError st emsg).odos_status = "NEEDS_REVIEW" ∧
    (odosOnError st emsg).fidelity = 0 ∧
    (odosOnError st emsg).rcf = 0 ∧
    (odosOnError st emsg).delta_e = 1/10 ∧
    (odosOnError st emsg).guardian_delta_e = 1/10 ∧
    (odosOnError st emsg).cr_recommendations = [emsg] := by
  refine ⟨rfl, rfl, ?_, ?_, ?_, ?_, rfl⟩ <;> norm_num [odosOnError]

/-! ## Fidelity metric: claim C10

Embedding of `compute_fidelity` from `src/pqms/metrics.py` (lines 9–31).
Hypotheses carry their `entities_involved`; the entity map carries the
stored confidence.  The Python set of entity ids is modelled as a
deduplicated list (the mean does not depend on enumeration order). -/

/-- A hypothesis as `compute_fidelity` reads it. -/
structure HypRec where
  entities_involved : List String
  deriving DecidableEq, Repr

/-- An entity record as `compute_fidelity` reads it (`confidence` field). -/
structure EntRec where
  confidence : ℚ
  deriving DecidableEq, Repr

/-- `entity_ids_in_hypotheses` (a Python set, modelled as a dedup list). -/
def entityIdsInHypotheses (hyps : List HypRec) : List String :=
  ((hyps.map (·.entities_involved)).flatten).dedup

/-- `compute_fidelity` from `src/pqms/metrics.py`: mean confidence of the
entities referenced by hypotheses; else decryption ratio; else 0.99. -/
def compute_fidelity (hyps : List HypRec) (entities : List (String × EntRec))
    (encrypted : List String) (decrypted : List (String × String)) : ℚ :=
  if hyps.isEmpty then
    if ¬ encrypted.isEmpty then (decrypted.length : ℚ) / encrypted.length
    else 0.99
  else
    let eids := entityIdsInHypotheses hyps
    let confs := eids.filterMap (fun eid => (entities.lookup eid).map (·.confidence))
    if confs.isEmpty then 0.99 else confs.sum / confs.length

/-- C10: with at least one hypothesis but no referenced entity present in the
entity map, the fidelity is exactly 0.99. -/
theorem c10_fidelity_default (hyps : List HypRec) (entities : List (String × EntRec))
    (encrypted : List String) (decrypted : List (String × String))
    (hne : hyps ≠ [])
    (hnone : ∀ h ∈ hyps, ∀ eid ∈ h.entities_involved, entities.lookup eid = none) :
    compute_fidelity hyps entities encrypted decrypted = 0.99 := by
  unfold compute_fidelity
  have hne' : ¬ hyps.isEmpty := by
    cases hyps with
    | nil => exact absurd rfl hne
    | cons a l => simp
  rw [if_neg hne']
  have hconfs :
      (entityIdsInHypotheses hyps).filterMap
        (fun eid => (entities.lookup eid).map (·.confidence)) = [] := by
    rw [List.filterMap_eq_nil_iff]
    intro eid hmem
    have : eid ∈ (hyps.map (·.entities_involved)).flatten := by
      have := List.mem_dedup.mp hmem
      exact this
    rw [List.mem_flatten] at this
    obtain ⟨l, hl, hel⟩ := this
    rw [List.mem_map] at hl
    obtain ⟨h, hh, rfl⟩ := hl
    rw [hnone h hh eid hel]
    rfl
  simp only [hconfs]
  rfl

/-- Witness for C10: one hypothesis referencing an absent entity id. -/
theorem c10_fidelity_default_witness :
    compute_fidelity [⟨["e_missing"]⟩] [("e_other", ⟨1⟩)] ["seg1"] [] = 0.99 := by
  apply c10_fidelity_default
  · simp
  · intro h hh eid heid
    simp at hh
    subst hh
    simp at heid
    subst heid
    rfl

/-! ## Document classifier: claims C7 and C9

Embedding of `src/agents/classifier.py`.  The keyword tables and the
substring scoring are translated directly; the three regex detectors
(`_suspicious_patterns`, `REFERENCE_PATTERN`) and the optional `langdetect`
library are abstracted as parameters — the claims hold for every value of
these oracles. -/

/-- `DOMAIN_KEYWORDS` (classifier.py lines 13–19). -/
def DOMAIN_KEYWORDS : List (String × List String) :=
  [("finance", ["offshore", "transação", "valor", "pagamento", "orçamento", "cnpj",
      "cpf", "payment", "budget", "invoice", "transaction"]),
   ("legal", ["contrato", "cláusula", "juiz", "tribunal", "lei", "contract", "clause",
      "court", "law"]),
   ("technical", ["api", "software", "sistema", "desenvolvimento", "code",
      "implementation"]),
   ("corporate", ["reunião", "diretor", "empresa", "meeting", "ceo", "board"]),
   ("administrative", ["nota fiscal", "nota fiscal", "memorando", "memo",
      "relatório interno"])]

/-- `DOC_TYPE_KEYWORDS` (classifier.py lines 20–27). -/
def DOC_TYPE_KEYWORDS : List (String × List String) :=
  [("contract", ["contrato", "contract", "termo", "agreement", "cláusula", "parte"]),
   ("invoice", ["nota fiscal", "invoice", "nf-", "valor total", "valor r$"]),
   ("report", ["relatório", "report", "análise", "analysis", "conclusão"]),
   ("email", ["from:", "to:", "subject:", "re:", "assunto", "enviado por"]),
   ("technical", ["especificação", "spec", "requisito", "requirement"]),
   ("legal", ["petição", "sentença", "autos"])]

/-- `PRIORITY_BOOST_KEYWORDS` (classifier.py line 28). -/
def PRIORITY_BOOST_KEYWORDS : List String :=
  ["confidencial", "restricted", "secret", "confidential", "urgente", "urgent"]

/-- Python `max(scores, key=scores.get)`: first key attaining the maximum in
insertion order. -/
def pyMaxByVal : List (String × Nat) → Option (String × Nat)
  | [] => none
  | x :: xs => some (xs.foldl (fun b y => if y.2 > b.2 then y else b) x)

/-- Keyword hit count: `sum(1 for k in keywords if k in lower)`. -/
def hitCount (lower : String) (keywords : List String) : Nat :=
  (keywords.filter (fun k => containsSub lower k)).length

/-- `_classify_domain` (classifier.py lines 149–161). -/
def classifyDomain (text : String) : String × ℚ :=
  let lower := pyLower (strTake text 5000)
  let scores := (DOMAIN_KEYWORDS.map (fun p => (p.1, hitCount lower p.2))).filter
    (fun p => p.2 ≠ 0)
  match pyMaxByVal scores with
  | none => ("other", 0.5)
  | some best => (best.1, round2 (min 0.95 (0.5 + 0.1 * best.2)))

/-- `_classify_doc_type` (classifier.py lines 163–174). -/
def classifyDocType (text : String) : String × ℚ :=
  let lower := pyLower (strTake text 3000)
  let scores := (DOC_TYPE_KEYWORDS.map (fun p => (p.1, hitCount lower p.2))).filter
    (fun p => p.2 ≠ 0)
  match pyMaxByVal scores with
  | none => ("other", 0.5)
  | some best => (best.1, round2 (min 0.95 (0.5 + 0.1 * best.2)))

/-- `dict.fromkeys`-style deduplication: keep the first occurrence of each
element (Python order). -/
def pyDedupAux {α : Type} [DecidableEq α] (seen : List α) : List α → List α
  | [] => []
  | x :: xs => if x ∈ seen then pyDedupAux seen xs else x :: pyDedupAux (x :: seen) xs

/-- `list(dict.fromkeys(l))`. -/
def pyDedup {α : Type} [DecidableEq α] (l : List α) : List α := pyDedupAux [] l

/-- `_extract_keywords` (classifier.py lines 176–186): boost keywords and
extras first, then domain keywords, deduplicated keeping first occurrences,
capped at 30. -/
def extractKeywords (text : String) : List String :=
  let lower := pyLower (strTake text 3000)
  let found :=
    (PRIORITY_BOOST_KEYWORDS ++ ["offshore", "transação", "contrato", "nota fiscal"]).filter
      (fun kw => containsSub lower kw)
  let found2 := ((DOMAIN_KEYWORDS.map Prod.snd).flatten).foldl
    (fun acc k => if containsSub lower k ∧ k ∉ acc then acc ++ [k] else acc) found
  (pyDedup found2).take 30

/-- ASCII whitespace (Python `str.split` / `str.strip` default). -/
def isSpaceC (c : Char) : Bool :=
  c = ' ' ∨ c = '\t' ∨ c = '\n' ∨ c = '\r' ∨ c = '\x0b' ∨ c = '\x0c'

/-- Python `s.strip()`. -/
def pyStrip (s : String) : String :=
  ⟨((s.data.dropWhile isSpaceC).reverse.dropWhile isSpaceC).reverse⟩

/-- `len(s.split())`: number of maximal non-whitespace runs. -/
def wordCount (s : String) : Nat :=
  ((s.data.splitOnP isSpaceC).filter (fun w => w ≠ [])).length

/-- `_detect_language` of classifier.py (lines 32–48); the `langdetect`
library call is the parameter `ld` (`none` = the library raised). -/
def detectLanguageC (ld : Option String) (text : String) : String × ℚ :=
  if text = "" ∨ (pyStrip text).data.length < 20 then ("unknown", 0)
  else
    match ld with
    | some lang => (lang, 0.9)
    | none =>
      let sample := pyLower (strTake text 2000)
      let ptFrags := [" de ", " da ", " do ", " que ", " e ", " o ", " a ", " em ",
        " para ", " com ", " não "]
      let enFrags := [" the ", " and ", " of ", " to ", " in ", " is ", " for ",
        " on ", " with "]
      let pt := (ptFrags.filter (fun w => containsSub sample w)).length
      let en := (enFrags.filter (fun w => containsSub sample w)).length
      if pt > en then ("pt", 0.7)
      else if en > pt then ("en", 0.7)
      else ("other", 0.5)

/-- The repeated `if cond: base += c; reasons.append(r)` pattern of
`_priority_score`. -/
def pAdd (cond : Prop) [Decidable cond] (b : ℚ × List String) (c : ℚ)
    (reason : String) : ℚ × List String :=
  if cond then (b.1 + c, b.2 ++ [reason]) else b

/-- `_priority_score` (classifier.py lines 188–219). `refMatch` abstracts
`REFERENCE_PATTERN.search(text)`. -/
def priorityScoreR (doc_type domain : String) (suspicious : List String)
    (refMatch : Bool) (text : String) : ℚ × List String :=
  let lower := pyLower text
  let b1 := pAdd (doc_type = "contract" ∨ doc_type = "invoice" ∨ doc_type = "report")
    (0.5, []) 0.2 ("doc_type_" ++ doc_type)
  let b2 := pAdd (domain = "finance" ∨ domain = "legal") b1 0.2 ("domain_" ++ domain)
  let b3 := pAdd (PRIORITY_BOOST_KEYWORDS.any (fun kw => containsSub lower kw) = true)
    b2 0.3 "contains_keyword_confidencial"
  let b4 := pAdd (containsSub lower "offshore" = true ∨ containsSub lower "transação" = true)
    b3 0.15 "high_relevance_keywords"
  let b5 := pAdd (suspicious ≠ []) b4 (0.1 * (min suspicious.length 3 : ℕ))
    "suspicious_patterns"
  let b6 := pAdd (refMatch = true) b5 0.15 "references_other_docs"
  (min 1 b6.1, b6.2)

/-- `_estimated_relevance` (classifier.py lines 62–69). -/
def estRelevance (p : ℚ) : String :=
  if p ≥ 0.8 then "critical"
  else if p ≥ 0.6 then "high"
  else if p ≥ 0.4 then "medium"
  else "low"

/-- The per-document fields computed by the `if word_count < 50` / `else`
branch of `DocumentClassifierAgent.process` (classifier.py lines 92–114). -/
structure ClassCore where
  domain : String
  domain_conf : ℚ
  doc_type : String
  doc_type_conf : ℚ
  language : String
  lang_conf : ℚ
  priority : ℚ
  reasons : List String
  keywords : List String
  deriving Repr

/-- One iteration of the classification loop before the record is built
(classifier.py lines 92–114). -/
def classifyCore (ld : Option String) (susp : String → List String)
    (refMatch : String → Bool) (text : String) : ClassCore :=
  let text_stripped := pyStrip text
  let wc := wordCount text_stripped
  if wc < 50 then
    ⟨"other", 0.5, "fragment", 0.8, "unknown", 0.5, 0.3, ["short_document"], []⟩
  else
    let dom := classifyDomain text
    let dt := classifyDocType text
    let lang := detectLanguageC ld text
    let keywords := extractKeywords text
    let suspicious := susp text
    let pr := priorityScoreR dt.1 dom.1 suspicious (refMatch text) text
    if lang.1 = "unknown" then
      ⟨dom.1, dom.2, dt.1, dt.2, lang.1, lang.2, max 0 (pr.1 - 0.2),
        pr.2 ++ ["language_unknown"], keywords⟩
    else
      ⟨dom.1, dom.2, dt.1, dt.2, lang.1, lang.2, pr.1, pr.2, keywords⟩

/-- The stored `DocumentClassification` fields relevant to the claims
(classifier.py lines 119–133). -/
structure ClassRec where
  domain : String
  document_type : String
  language : String
  priority_score : ℚ
  priority_reasons : List String
  keywords_detected : List String
  estimated_relevance : String
  processing_order : Nat
  deriving Repr

/-- Assembling the stored record (classifier.py lines 116–133): relevance is
computed from the raw priority, the stored score is the clamped value rounded
to two decimals, and `keywords_detected` is `keywords[:20]`. -/
def classifyOne (ld : Option String) (susp : String → List String)
    (refMatch : String → Bool) (text : String) (idx : Nat) : ClassRec :=
  let c := classifyCore ld susp refMatch text
  { domain := c.domain
    document_type := c.doc_type
    language := c.language
    priority_score := round2 (min 1 (max 0 c.priority))
    priority_reasons := c.reasons
    keywords_detected := c.keywords.take 20
    estimated_relevance := estRelevance c.priority
    processing_order := idx + 1 }

/-! ### Binary64 arithmetic for the priority score (claim C7)

`_priority_score` accumulates the priority in Python floats (IEEE-754
binary64).  A float is modelled by its exact value as a dyadic pair
`(m, s)` standing for `m / 2^s`; every arithmetic result is rounded to 53
significant bits with round-to-nearest, ties to even, which is exact for
the values arising here (all lie well inside the normal range, so overflow
and subnormals never occur).  A decimal literal denotes the binary64 value
nearest to it, and `round(x, 2)` rounds the exact value of `x` half-to-even
to two decimals and returns the nearest binary64 value, as CPython does. -/

/-- Fuel-bounded binary length of a natural number. -/
def bitLen : ℕ → ℕ → ℕ
  | 0, _ => 0
  | fuel + 1, n => if n = 0 then 0 else bitLen fuel (n / 2) + 1

/-- Round the dyadic `m / 2^s` to 53 significant bits, ties to even. -/
def fl53 (m : ℤ) (s : ℕ) : ℤ × ℕ :=
  let n := m.natAbs
  let L := bitLen 200 n
  if L ≤ 53 then (m, s)
  else
    let t := L - 53
    let m0 := n / 2 ^ t
    let r := n % 2 ^ t
    let half := 2 ^ (t - 1)
    let m1 := if half < r ∨ (r = half ∧ m0 % 2 = 1) then m0 + 1 else m0
    (if m < 0 then -(m1 : ℤ) else (m1 : ℤ), s - t)

/-- The exact rational value of a dyadic pair. -/
def valD (x : ℤ × ℕ) : ℚ := (x.1 : ℚ) / 2 ^ x.2

/-- The binary64 value nearest to `p / q` (`p, q > 0`): a correctly rounded
division with a sticky bit, as when a decimal literal is parsed. -/
def litD (p q : ℕ) : ℤ × ℕ :=
  let k := 55 + bitLen 200 q
  let n := p * 2 ^ k
  let m1 := n / q
  let L := bitLen 200 m1
  let t := L - 53
  let m0 := m1 / 2 ^ t
  let r := m1 % 2 ^ t
  let half := 2 ^ (t - 1)
  let m := if half < r ∨ (r = half ∧ (¬ n % q = 0 ∨ m0 % 2 = 1)) then m0 + 1 else m0
  ((m : ℤ), k - t)

/-- Binary64 addition: the exact sum, rounded. -/
def faddD (x y : ℤ × ℕ) : ℤ × ℕ :=
  let s := max x.2 y.2
  fl53 (x.1 * 2 ^ (s - x.2) + y.1 * 2 ^ (s - y.2)) s

/-- Binary64 subtraction: the exact difference, rounded. -/
def fsubD (x y : ℤ × ℕ) : ℤ × ℕ :=
  let s := max x.2 y.2
  fl53 (x.1 * 2 ^ (s - x.2) - y.1 * 2 ^ (s - y.2)) s

/-- Binary64 product with a small natural number (`0.1 * min(len, 3)`):
the exact product, rounded. -/
def fmulN (x : ℤ × ℕ) (n : ℕ) : ℤ × ℕ := fl53 (x.1 * n) x.2

/-- Float strict comparison, on exact values. -/
def fltD (x y : ℤ × ℕ) : Bool :=
  decide (x.1 * 2 ^ (max x.2 y.2 - x.2) < y.1 * 2 ^ (max x.2 y.2 - y.2))

/-- Float `>=`, on exact values. -/
def fgeD (x y : ℤ × ℕ) : Bool := !fltD x y

/-- Python `min(a, b)` on floats: `b` if `b < a` else `a`. -/
def pyMinF (a b : ℤ × ℕ) : ℤ × ℕ := if fltD b a then b else a

/-- Python `max(a, b)` on floats: `b` if `a < b` else `a`. -/
def pyMaxF (a b : ℤ × ℕ) : ℤ × ℕ := if fltD a b then b else a

/-- Python `round(x, 2)` on a nonnegative float (the argument here is
always the clamped score in [0, 1]): round the exact value half-to-even to
centesimal units, then return the nearest binary64 value. -/
def roundD2 (x : ℤ × ℕ) : ℤ × ℕ :=
  let a := x.1.toNat
  let num := 100 * a
  let m0 := num / 2 ^ x.2
  let r := num % 2 ^ x.2
  let half := 2 ^ (x.2 - 1)
  let c := if half < r ∨ (r = half ∧ m0 % 2 = 1) then m0 + 1 else m0
  if c = 0 then (0, 0) else litD c 100

/-- `_estimated_relevance` (classifier.py lines 62–69) on the float
priority: the thresholds are the binary64 literals 0.8, 0.6, 0.4. -/
def estRelevanceF (p : ℤ × ℕ) : String :=
  if fgeD p (litD 8 10) then "critical"
  else if fgeD p (litD 6 10) then "high"
  else if fgeD p (litD 4 10) then "medium"
  else "low"

/-- The float value accumulated by `_priority_score` (classifier.py lines
188–219); the reasons list is as in `priorityScoreR`. -/
def priorityScoreF (doc_type domain : String) (suspicious : List String)
    (refMatch : Bool) (text : String) : ℤ × ℕ :=
  let lower := pyLower text
  let b1 := if doc_type = "contract" ∨ doc_type = "invoice" ∨ doc_type = "report"
    then faddD (litD 5 10) (litD 2 10) else litD 5 10
  let b2 := if domain = "finance" ∨ domain = "legal" then faddD b1 (litD 2 10) else b1
  let b3 := if PRIORITY_BOOST_KEYWORDS.any (fun kw => containsSub lower kw) = true
    then faddD b2 (litD 3 10) else b2
  let b4 := if containsSub lower "offshore" = true ∨ containsSub lower "transação" = true
    then faddD b3 (litD 15 100) else b3
  let b5 := if suspicious ≠ []
    then faddD b4 (fmulN (litD 1 10) (min suspicious.length 3)) else b4
  let b6 := if refMatch = true then faddD b5 (litD 15 100) else b5
  pyMinF (litD 1 1) b6

/-- The float priority the classification loop holds for a document
(classifier.py lines 92–114): 0.3 for short documents, otherwise the
`_priority_score` value with the unknown-language deduction. -/
def classifyPriorityF (ld : Option String) (susp : String → List String)
    (refMatch : String → Bool) (text : String) : ℤ × ℕ :=
  let text_stripped := pyStrip text
  let wc := wordCount text_stripped
  if wc < 50 then litD 3 10
  else
    let dom := classifyDomain text
    let dt := classifyDocType text
    let lang := detectLanguageC ld text
    let pr := priorityScoreF dt.1 dom.1 (susp text) (refMatch text) text
    if lang.1 = "unknown" then pyMaxF (litD 0 1) (fsubD pr (litD 2 10)) else pr

/-- The stored `priority_score`: `round(min(1.0, max(0.0, priority)), 2)`
(classifier.py line 124). -/
def storedScoreF (ld : Option String) (susp : String → List String)
    (refMatch : String → Bool) (text : String) : ℤ × ℕ :=
  roundD2 (pyMinF (litD 1 1) (pyMaxF (litD 0 1) (classifyPriorityF ld susp refMatch text)))

/-- The stored `estimated_relevance`: computed from the priority BEFORE
rounding (classifier.py line 116). -/
def relevanceF (ld : Option String) (susp : String → List String)
    (refMatch : String → Bool) (text : String) : String :=
  estRelevanceF (classifyPriorityF ld susp refMatch text)

/-- Numeric order of the relevance bands. -/
def bandRank (s : String) : ℕ :=
  if s = "critical" then 3 else if s = "high" then 2
  else if s = "medium" then 1 else 0

/-- A dyadic pair with nonnegative numerator has nonnegative value. -/
theorem valD_nonneg (x : ℤ × ℕ) (h : 0 ≤ x.1) : 0 ≤ valD x := by
  unfold valD
  apply div_nonneg
  · exact_mod_cast h
  · positivity

/-- A dyadic pair with numerator at most `2^s` has value at most 1. -/
theorem valD_le_one (x : ℤ × ℕ) (h : x.1 ≤ 2 ^ x.2) : valD x ≤ 1 := by
  unfold valD
  rw [div_le_one (by positivity)]
  exact_mod_cast h

set_option maxRecDepth 100000 in
/-- C7 amended: under binary64 arithmetic the stored priority score lies in
[0, 1] and is a fixed point of `round(., 2)`, and the stored relevance is
the band of the priority BEFORE rounding; the band of the stored rounded
score is never below the stored relevance, but it can be strictly above it
(rounding can cross a band threshold), so relevance is not always the band
of the stored score. -/
theorem c7_priority_float (ld : Option String) (susp : String → List String)
    (rm : String → Bool) (text : String) :
    0 ≤ valD (storedScoreF ld susp rm text) ∧
    valD (storedScoreF ld susp rm text) ≤ 1 ∧
    roundD2 (storedScoreF ld susp rm text) = storedScoreF ld susp rm text ∧
    relevanceF ld susp rm text =
      estRelevanceF (classifyPriorityF ld susp rm text) ∧
    bandRank (relevanceF ld susp rm text) ≤
      bandRank (estRelevanceF (storedScoreF ld susp rm text)) := by
  have key : 0 ≤ (storedScoreF ld susp rm text).1 ∧
      (storedScoreF ld susp rm text).1 ≤ 2 ^ (storedScoreF ld susp rm text).2 ∧
      roundD2 (storedScoreF ld susp rm text) = storedScoreF ld susp rm text ∧
      bandRank (relevanceF ld susp rm text) ≤
        bandRank (estRelevanceF (storedScoreF ld susp rm text)) := by
    simp only [storedScoreF, relevanceF, classifyPriorityF]
    by_cases hwc : wordCount (pyStrip text) < 50
    · simp only [if_pos hwc]
      decide
    · simp only [if_neg hwc, priorityScoreF]
      by_cases hlu : (detectLanguageC ld text).1 = "unknown" <;>
      by_cases h1 : (classifyDocType text).1 = "contract" ∨
        (classifyDocType text).1 = "invoice" ∨ (classifyDocType text).1 = "report" <;>
      by_cases h2 : (classifyDomain text).1 = "finance" ∨
        (classifyDomain text).1 = "legal" <;>
      by_cases h4 : containsSub (pyLower text) "offshore" = true ∨
        containsSub (pyLower text) "transação" = true <;>
      by_cases hnil : susp text = [] <;>
      simp only [hlu, h1, h2, h4, hnil, if_true, if_false, ite_true, ite_false,
        ne_eq, not_true, not_false_iff] <;>
      first
      | (generalize PRIORITY_BOOST_KEYWORDS.any
            (fun kw => containsSub (pyLower text) kw) = b3
         generalize rm text = b6
         revert b3 b6
         decide)
      | (generalize hm : min (susp text).length 3 = m
         have hm3 : m ≤ 3 := by
           rw [← hm]
           exact Nat.min_le_right _ _
         generalize PRIORITY_BOOST_KEYWORDS.any
            (fun kw => containsSub (pyLower text) kw) = b3
         generalize rm text = b6
         interval_cases m <;> revert b3 b6 <;> decide)
  exact ⟨valD_nonneg _ key.1, valD_le_one _ key.2.1, key.2.2.1, rfl, key.2.2.2⟩

/-- A fifty-word contract-type document with one suspicious pattern for the
C7 counterexample. -/
def c7Text : String := "termo zz zz zz zz zz zz zz zz zz zz zz zz zz zz zz zz zz zz zz zz zz zz zz zz zz zz zz zz zz zz zz zz zz zz zz zz zz zz zz zz zz zz zz zz zz zz zz zz zz"

set_option maxRecDepth 100000 in
/-- C7 counterexample: on `c7Text` the float priority accumulates
0.5 + 0.2 + 0.1 = 0.7999999999999999 in binary64, so the stored relevance
is "high"; but the stored score `round(., 2)` is the binary64 value 0.8
(which is ≥ 4/5), whose band is "critical" — the stored relevance is NOT
the band of the stored priority score, refuting the claimed invariant. -/
theorem c7_counterexample :
    relevanceF (some "en") (fun _ => ["redaction_blocks"]) (fun _ => false) c7Text
      = "high" ∧
    storedScoreF (some "en") (fun _ => ["redaction_blocks"]) (fun _ => false) c7Text
      = (7205759403792794, 53) ∧
    estRelevanceF (7205759403792794, 53) = "critical" ∧
    (4 : ℚ) / 5 ≤ valD (7205759403792794, 53) := by
  refine ⟨by decide, by decide, by decide, ?_⟩
  show (4 : ℚ) / 5 ≤ ((7205759403792794 : ℤ) : ℚ) / 2 ^ (53 : ℕ)
  norm_num

/-- C9 amended: the stored keyword list is the first 20 entries of the
detected list (itself capped at 30); at most 20 keywords are ever stored, and
all detected keywords are stored exactly when at most 20 were detected. -/
theorem c9_keywords_twenty (ld : Option String) (susp : String → List String)
    (rm : String → Bool) (text : String) (idx : ℕ) :
    (classifyOne ld susp rm text idx).keywords_detected =
      (classifyCore ld susp rm text).keywords.take 20 ∧
    (classifyOne ld susp rm text idx).keywords_detected.length ≤ 20 ∧
    (classifyCore ld susp rm text).keywords.length ≤ 30 ∧
    ((classifyCore ld susp rm text).keywords.length ≤ 20 →
      (classifyOne ld susp rm text idx).keywords_detected =
        (classifyCore ld susp rm text).keywords) := by
  refine ⟨rfl, ?_, ?_, ?_⟩
  · exact List.length_take_le 20 _
  · simp only [classifyCore]
    split_ifs with hwc hlang
    · simp
    · simp only [extractKeywords]
      exact List.length_take_le 30 _
    · simp only [extractKeywords]
      exact List.length_take_le 30 _
  · intro h
    show (classifyCore ld susp rm text).keywords.take 20 = _
    exact List.take_of_length_le h

/-- Witness for C9 amended at a short text: all (zero) detected keywords are
stored. -/
theorem c9_keywords_twenty_witness :
    (classifyOne none (fun _ => []) (fun _ => false) "short text" 0).keywords_detected =
      (classifyCore none (fun _ => []) (fun _ => false) "short text").keywords :=
  (c9_keywords_twenty none (fun _ => []) (fun _ => false) "short text" 0).2.2.2
    (by decide)

/-- A 50-word text containing 26 of the classifier keywords. -/
def c9KeywordText : String :=
  "confidencial restricted secret urgente offshore contrato valor pagamento cnpj cpf payment budget invoice transaction juiz tribunal lei contract clause court law api software sistema code w1 w2 w3 w4 w5 w6 w7 w8 w9 w10 w11 w12 w13 w14 w15 w16 w17 w18 w19 w20 w21 w22 w23 w24 w25"

set_option maxRecDepth 40000 in
/-- C9 counterexample: on `c9KeywordText` the classifier detects 26 keywords
(at most 30), yet stores only the first 20 of them, so the stored list is not
the detected list. -/
theorem c9_counterexample :
    (classifyCore none (fun _ => []) (fun _ => false) c9KeywordText).keywords.length = 26 ∧
    (classifyOne none (fun _ => []) (fun _ => false) c9KeywordText 0).keywords_detected.length
      = 20 ∧
    (classifyOne none (fun _ => []) (fun _ => false) c9KeywordText 0).keywords_detected ≠
      (classifyCore none (fun _ => []) (fun _ => false) c9KeywordText).keywords := by
  have h26 :
      (classifyCore none (fun _ => []) (fun _ => false) c9KeywordText).keywords.length = 26 := by
    decide
  have h20 :
      (classifyOne none (fun _ => []) (fun _ => false)
        c9KeywordText 0).keywords_detected.length = 20 := by
    decide
  refine ⟨h26, h20, fun h => ?_⟩
  have hlen := congrArg List.length h
  rw [h20, h26] at hlen
  exact absurd hlen (by norm_num)

/-! ## Timeline reconstruction: claim C6

Embedding of the sort step of `TimelineReconstructorAgent.process`
(`src/agents/timeline.py`, lines 120–126).  A `datetime` is represented by
its `isoformat()` string; ISO-8601 strings of dates are ordered
chronologically by code point, which is exactly how `_ts_key` compares them.
Python's stable `list.sort` is modelled by a comparison sort on the same
key; the claim depends only on the sortedness of the result. -/

/-- A timeline event as the sort step sees it. -/
structure TEvent where
  event_id : String
  timestamp : Option String
  deriving DecidableEq, Repr

/-- `_ts_key` (timeline.py lines 120–124): `""` when the timestamp is
missing, else its isoformat string. -/
def tsKey (e : TEvent) : String :=
  match e.timestamp with
  | none => ""
  | some t => t

/-- Comparison of events by `_ts_key`, as a Bool. -/
def tsLeB (a b : TEvent) : Bool := lexLeB (tsKey a).data (tsKey b).data

/-- Comparison of events by `_ts_key`. -/
def tsLe (a b : TEvent) : Prop := tsLeB a b = true

instance : DecidableRel tsLe := fun a b => inferInstanceAs (Decidable (tsLeB a b = true))

instance : IsTotal TEvent tsLe := ⟨fun a b => lexLeB_total (tsKey a).data (tsKey b).data⟩

instance : IsTrans TEvent tsLe :=
  ⟨fun a b c => lexLeB_trans (tsKey a).data (tsKey b).data (tsKey c).data⟩

/-- `timeline.sort(key=_ts_key)` (timeline.py line 126). -/
def timelineSort (l : List TEvent) : List TEvent := l.insertionSort tsLe

/-- Only the empty key is below the empty key. -/
theorem lexLeB_nil_right {x : List Char} (h : lexLeB x [] = true) : x = [] := by
  cases x with
  | nil => rfl
  | cons a as => simp [lexLeB] at h

/-- C6 counterexample: after sorting, the event with a `None` timestamp is
placed *before* the dated event, so "nulls last" fails on the code. -/
theorem c6_counterexample :
    (timelineSort [⟨"ev1", some "2024-01-15T00:00:00"⟩, ⟨"ev2", none⟩]).map
      (fun e => e.timestamp) = [none, some "2024-01-15T00:00:00"] := by
  decide

/-- C6 amended: the timeline is sorted by the `_ts_key` string key, so for
any two events with non-null timestamps the chronologically earlier one
appears no later in the array, and (since isoformat strings are never empty)
every event with a null timestamp is placed *before* all events with
non-null timestamps. -/
theorem c6_timeline_sorted (l : List TEvent)
    (hne : ∀ e ∈ l, e.timestamp ≠ some "") :
    (timelineSort l).Perm l ∧
    List.Pairwise tsLe (timelineSort l) ∧
    List.Pairwise (fun a b => b.timestamp = none → a.timestamp = none)
      (timelineSort l) := by
  have hperm : (timelineSort l).Perm l := List.perm_insertionSort tsLe l
  have hsorted : List.Pairwise tsLe (timelineSort l) :=
    List.sorted_insertionSort tsLe l
  refine ⟨hperm, hsorted, ?_⟩
  refine hsorted.imp_of_mem ?_
  intro a b ha _ hle hbnone
  have hb : tsKey b = "" := by simp [tsKey, hbnone]
  have ha' : lexLeB (tsKey a).data [] = true := by
    have : (tsKey b).data = [] := by rw [hb]
    rw [← this]
    exact hle
  have hkey : (tsKey a).data = [] := lexLeB_nil_right ha'
  cases hts : a.timestamp with
  | none => rfl
  | some s =>
    exfalso
    have : tsKey a = s := by simp [tsKey, hts]
    have hs : s.data = [] := by rw [← this]; exact hkey
    have hse : s = "" := String.ext (hs.trans rfl)
    exact (hne a (hperm.mem_iff.mp ha)) (by rw [hts, hse])

/-- Witness for C6: a two-event list with distinct dates and no empty
isoformat strings. -/
theorem c6_timeline_sorted_witness :
    (timelineSort [⟨"e1", some "2024-02-01T00:00:00"⟩, ⟨"e2", some "2024-01-01T00:00:00"⟩]).Perm
      [⟨"e1", some "2024-02-01T00:00:00"⟩, ⟨"e2", some "2024-01-01T00:00:00"⟩] ∧
    List.Pairwise tsLe
      (timelineSort [⟨"e1", some "2024-02-01T00:00:00"⟩, ⟨"e2", some "2024-01-01T00:00:00"⟩]) ∧
    List.Pairwise (fun a b => b.timestamp = none → a.timestamp = none)
      (timelineSort [⟨"e1", some "2024-02-01T00:00:00"⟩, ⟨"e2", some "2024-01-01T00:00:00"⟩]) :=
  c6_timeline_sorted
    [⟨"e1", some "2024-02-01T00:00:00"⟩, ⟨"e2", some "2024-01-01T00:00:00"⟩]
    (by decide)

/-! ## Entity extraction, co-occurrence relationships: claim C2

Embedding of `EntityExtractionAgent._build_relationships`
(`src/agents/entity_extractor.py`, lines 197–240).  Python dicts are
association lists with first-occurrence keys updated in place
(`updAssoc` models `d[k] = v`, `appendAssocVal` models
`defaultdict(list)[k].append(v)`), and `tuple(sorted([a, b]))` is
`sortPair` under code-point comparison. -/

/-- Python `d[k] = v` on a dict represented as an association list. -/
def updAssoc {κ β : Type} [DecidableEq κ] : List (κ × β) → κ → β → List (κ × β)
  | [], k, v => [(k, v)]
  | kv :: rest, k, v =>
    if kv.1 = k then (k, v) :: rest else kv :: updAssoc rest k v

/-- Dict lookup returning the first (unique) binding. -/
def lookupOpt {κ β : Type} [DecidableEq κ] : List (κ × β) → κ → Option β
  | [], _ => none
  | kv :: rest, k => if kv.1 = k then some kv.2 else lookupOpt rest k

/-- `d.get(k, dflt)`. -/
def lookupD {κ β : Type} [DecidableEq κ] (m : List (κ × β)) (k : κ) (dflt : β) : β :=
  (lookupOpt m k).getD dflt

/-- `defaultdict(list); d[k].append(v)`. -/
def appendAssocVal {κ : Type} [DecidableEq κ] :
    List (κ × List String) → κ → String → List (κ × List String)
  | [], k, v => [(k, [v])]
  | kv :: rest, k, v =>
    if kv.1 = k then (kv.1, kv.2 ++ [v]) :: rest else kv :: appendAssocVal rest k v

/-- The list of values appended under key `k` (empty when absent). -/
def lookupVal {κ : Type} [DecidableEq κ] (m : List (κ × List String)) (k : κ) :
    List String :=
  (lookupOpt m k).getD []

/-- An entity record as `_build_relationships` reads `entities_list`. -/
structure EntREx where
  entity_id : String
  text : String
  normalized_text : String
  type : String
  deriving DecidableEq, Repr

/-- A raw mention as `_build_relationships` reads `raw_entities` (paired with
its `doc_id`). -/
structure RawEnt where
  text : String
  type : String
  normalized_text : String
  deriving DecidableEq, Repr

/-- `f"{e.get('normalized_text') or e.get('text', '')}|{e.get('type', '')}"`
(`or` tests Python falsiness of the empty string). -/
def entKeyOf (norm text ty : String) : String :=
  (if norm = "" then text else norm) ++ "|" ++ ty

/-- `text_to_eid` (entity_extractor.py lines 204–207). -/
def textToEid (entities : List EntREx) : List (String × String) :=
  entities.foldl
    (fun m e => updAssoc m (entKeyOf e.normalized_text e.text e.type) e.entity_id) []

/-- `doc_to_eids` (entity_extractor.py lines 202, 208–212). -/
def docToEids (entities : List EntREx) (raws : List (String × RawEnt)) :
    List (String × List String) :=
  raws.foldl
    (fun m dr =>
      match lookupOpt (textToEid entities)
          (entKeyOf dr.2.normalized_text dr.2.text dr.2.type) with
      | some eid => appendAssocVal m dr.1 eid
      | none => m)
    []

/-- `for i, a in enumerate(eids): for b in eids[i+1:]`: ordered index pairs. -/
def pairsOf {α : Type} : List α → List (α × α)
  | [] => []
  | x :: xs => (xs.map (fun y => (x, y))) ++ pairsOf xs

/-- `tuple(sorted([a, b]))` for two strings. -/
def sortPair (a b : String) : String × String :=
  if pyStrLe a b then (a, b) else (b, a)

/-- The inner double loop of lines 215–221 for a single document. -/
def addDocPairs (m : List ((String × String) × List String)) (d : String)
    (eids : List String) : List ((String × String) × List String) :=
  (pairsOf eids).foldl
    (fun m' p => if p.1 = p.2 then m' else appendAssocVal m' (sortPair p.1 p.2) d) m

/-- `pair_to_evidence` (entity_extractor.py lines 214–221). -/
def pairEvidence (docEids : List (String × List String)) :
    List ((String × String) × List String) :=
  docEids.foldl (fun m de => addDocPairs m de.1 de.2) []

/-- `eid_to_entity[...]["type"]` lookups (line 203 with lines 226–227). -/
def eidToType (entities : List EntREx) : List (String × String) :=
  entities.foldl (fun m e => updAssoc m e.entity_id e.type) []

/-- A relationship as built by lines 223–239 (fields of
`core.state.Relationship`). -/
structure RelRec where
  source_entity_id : String
  target_entity_id : String
  relationship_type : String
  weight : ℚ
  evidence_doc_ids : List String
  evidence_count : ℕ
  confidence : ℚ
  deriving DecidableEq, Repr

/-- `_build_relationships` (entity_extractor.py lines 197–240). -/
def buildRelationships (entities : List EntREx) (raws : List (String × RawEnt)) :
    List RelRec :=
  (pairEvidence (docToEids entities raws)).map (fun pe =>
    let evidence := pyDedup pe.2
    let type_a := lookupD (eidToType entities) pe.1.1 ""
    let type_b := lookupD (eidToType entities) pe.1.2 ""
    let evidence_count := evidence.length
    { source_entity_id := pe.1.1
      target_entity_id := pe.1.2
      relationship_type :=
        if type_a ≠ type_b then "ASSOCIATED_WITH" else "CO_OCCURRENCE"
      weight := (evidence_count : ℚ)
      evidence_doc_ids := evidence
      evidence_count := evidence_count
      confidence := min 0.95 (0.7 + 0.05 * (min evidence_count 5 : ℕ)) })

/-- Membership in `pyDedupAux`. -/
theorem mem_pyDedupAux {α : Type} [DecidableEq α] (l : List α) :
    ∀ (seen : List α) (a : α), a ∈ pyDedupAux seen l ↔ a ∈ l ∧ a ∉ seen := by
  induction l with
  | nil => intro seen a; simp [pyDedupAux]
  | cons x xs ih =>
    intro seen a
    simp only [pyDedupAux]
    split_ifs with hx
    · rw [ih]
      constructor
      · rintro ⟨h1, h2⟩
        exact ⟨List.mem_cons_of_mem _ h1, h2⟩
      · rintro ⟨h1, h2⟩
        rcases List.mem_cons.mp h1 with rfl | h1
        · exact absurd hx h2
        · exact ⟨h1, h2⟩
    · simp only [List.mem_cons, ih]
      constructor
      · rintro (rfl | ⟨h1, h2⟩)
        · exact ⟨Or.inl rfl, hx⟩
        · exact ⟨Or.inr h1, fun hs => h2 (Or.inr hs)⟩
      · rintro ⟨(rfl | h1), h2⟩
        · exact Or.inl rfl
        · by_cases hax : a = x
          · exact Or.inl hax
          · exact Or.inr ⟨h1, by simp [List.mem_cons, hax, h2]⟩

/-- Membership in `pyDedup`. -/
theorem mem_pyDedup {α : Type} [DecidableEq α] {l : List α} {a : α} :
    a ∈ pyDedup l ↔ a ∈ l := by
  rw [pyDedup, mem_pyDedupAux]
  simp

/-- `pyDedupAux` produces no duplicates. -/
theorem nodup_pyDedupAux {α : Type} [DecidableEq α] (l : List α) :
    ∀ seen : List α, (pyDedupAux seen l).Nodup := by
  induction l with
  | nil => intro seen; simp [pyDedupAux]
  | cons x xs ih =>
    intro seen
    simp only [pyDedupAux]
    split_ifs with hx
    · exact ih seen
    · refine List.nodup_cons.mpr ⟨fun hmem => ?_, ih (x :: seen)⟩
      have := (mem_pyDedupAux xs (x :: seen) x).mp hmem
      exact this.2 (List.mem_cons_self _ _)

/-- `pyDedup` produces no duplicates. -/
theorem nodup_pyDedup {α : Type} [DecidableEq α] (l : List α) : (pyDedup l).Nodup :=
  nodup_pyDedupAux l []

/-- How appending under a key changes lookups. -/
theorem lookupVal_appendAssocVal {κ : Type} [DecidableEq κ]
    (m : List (κ × List String)) (k : κ) (v : String) (k' : κ) :
    lookupVal (appendAssocVal m k v) k' =
      if k' = k then lookupVal m k' ++ [v] else lookupVal m k' := by
  induction m with
  | nil =>
    by_cases h : k' = k
    · subst h; simp [appendAssocVal, lookupVal, lookupOpt]
    · have h2 : ¬ k = k' := fun hh => h (Eq.symm hh)
      simp [appendAssocVal, lookupVal, lookupOpt, h, h2]
  | cons kv rest ih =>
    by_cases hk : kv.1 = k
    · by_cases h : k' = k
      · subst h
        simp [appendAssocVal, lookupVal, lookupOpt, hk]
      · have hkv : kv.1 ≠ k' := fun hh => h (hh ▸ hk : k' = k)
        have h2 : ¬ k = k' := fun hh => h (Eq.symm hh)
        simp [appendAssocVal, lookupVal, lookupOpt, hk, hkv, h, h2]
    · by_cases hkv : kv.1 = k'
      · have h : ¬ k' = k := fun hh => hk (hkv.trans hh)
        simp [appendAssocVal, lookupVal, lookupOpt, hk, hkv, h]
      · simp only [appendAssocVal, if_neg hk]
        simp only [lookupVal, lookupOpt, if_neg hkv]
        exact ih

/-- Every entry of `appendAssocVal` is an old entry or carries the new key. -/
theorem mem_appendAssocVal {κ : Type} [DecidableEq κ]
    {m : List (κ × List String)} {k : κ} {v : String} {kv : κ × List String}
    (h : kv ∈ appendAssocVal m k v) : kv.1 = k ∨ kv ∈ m := by
  induction m with
  | nil =>
    simp only [appendAssocVal, List.mem_singleton] at h
    left; rw [h]
  | cons hd rest ih =>
    by_cases hk : hd.1 = k
    · simp only [appendAssocVal, if_pos hk, List.mem_cons] at h
      rcases h with rfl | h
      · left; exact hk
      · right; exact List.mem_cons_of_mem _ h
    · simp only [appendAssocVal, if_neg hk, List.mem_cons] at h
      rcases h with rfl | h
      · right; exact List.mem_cons_self _ _
      · rcases ih h with h' | h'
        · left; exact h'
        · right; exact List.mem_cons_of_mem _ h'

/-- The keys of `appendAssocVal`. -/
theorem keys_appendAssocVal {κ : Type} [DecidableEq κ]
    (m : List (κ × List String)) (k : κ) (v : String) :
    (appendAssocVal m k v).map Prod.fst =
      if k ∈ m.map Prod.fst then m.map Prod.fst else m.map Prod.fst ++ [k] := by
  induction m with
  | nil => simp [appendAssocVal]
  | cons hd rest ih =>
    by_cases hk : hd.1 = k
    · simp [appendAssocVal, hk]
    · have : ¬ k = hd.1 := fun hh => hk hh.symm
      simp only [appendAssocVal, if_neg hk, List.map_cons, List.mem_cons, this,
        false_or, ih]
      split_ifs with h
      · rfl
      · simp

/-- `appendAssocVal` preserves distinct keys. -/
theorem keysNodup_appendAssocVal {κ : Type} [DecidableEq κ]
    {m : List (κ × List String)} (h : (m.map Prod.fst).Nodup) (k : κ) (v : String) :
    ((appendAssocVal m k v).map Prod.fst).Nodup := by
  rw [keys_appendAssocVal]
  split_ifs with hk
  · exact h
  · simp only [List.nodup_append, List.nodup_singleton]
    exact ⟨h, by simp, by simpa using fun hmem => hk hmem⟩

/-- With distinct keys, every entry is found by its own key. -/
theorem lookupOpt_of_mem {κ β : Type} [DecidableEq κ]
    {m : List (κ × β)} (hnd : (m.map Prod.fst).Nodup) {kv : κ × β} (h : kv ∈ m) :
    lookupOpt m kv.1 = some kv.2 := by
  induction m with
  | nil => cases h
  | cons hd rest ih =>
    rcases List.mem_cons.mp h with rfl | h
    · simp [lookupOpt]
    · rw [List.map_cons] at hnd
      have hnd' := List.nodup_cons.mp hnd
      have hne : hd.1 ≠ kv.1 := by
        intro hh
        exact hnd'.1 (hh ▸ (List.mem_map_of_mem Prod.fst h))
      simp only [lookupOpt, if_neg hne]
      exact ih hnd'.2 h

/-- Components of a `pairsOf` pair come from the list. -/
theorem mem_of_pairsOf {α : Type} {l : List α} {p : α × α} (h : p ∈ pairsOf l) :
    p.1 ∈ l ∧ p.2 ∈ l := by
  induction l with
  | nil => cases h
  | cons x xs ih =>
    simp only [pairsOf, List.mem_append, List.mem_map] at h
    rcases h with ⟨y, hy, rfl⟩ | h
    · exact ⟨List.mem_cons_self _ _, List.mem_cons_of_mem _ hy⟩
    · obtain ⟨h1, h2⟩ := ih h
      exact ⟨List.mem_cons_of_mem _ h1, List.mem_cons_of_mem _ h2⟩

/-- Two distinct members of a list occur as a `pairsOf` pair in one of the
two orders. -/
theorem pairsOf_of_mem {α : Type} [DecidableEq α] {l : List α} {a b : α}
    (ha : a ∈ l) (hb : b ∈ l) (hne : a ≠ b) :
    (a, b) ∈ pairsOf l ∨ (b, a) ∈ pairsOf l := by
  induction l with
  | nil => cases ha
  | cons x xs ih =>
    rcases List.mem_cons.mp ha with rfl | ha'
    · have hb' : b ∈ xs := by
        rcases List.mem_cons.mp hb with rfl | hb'
        · exact absurd rfl hne
        · exact hb'
      left
      simp only [pairsOf, List.mem_append, List.mem_map]
      exact Or.inl ⟨b, hb', rfl⟩
    · rcases List.mem_cons.mp hb with rfl | hb'
      · right
        simp only [pairsOf, List.mem_append, List.mem_map]
        exact Or.inl ⟨a, ha', rfl⟩
      · rcases ih ha' hb' with h | h
        · left; simp only [pairsOf, List.mem_append]; exact Or.inr h
        · right; simp only [pairsOf, List.mem_append]; exact Or.inr h

/-- Strict string order implies inequality. -/
theorem pyStrLt_ne {a b : String} (h : pyStrLt a b = true) : a ≠ b := by
  simp only [pyStrLt, Bool.and_eq_true, Bool.not_eq_true'] at h
  intro hh
  rw [hh] at h
  simp at h

/-- `Char.toNat` is injective. -/
theorem charToNat_inj : Function.Injective Char.toNat :=
  StrictMono.injective fun _ _ h => h

/-- `lexLeB` is antisymmetric. -/
theorem lexLeB_antisymm :
    ∀ a b : List Char, lexLeB a b = true → lexLeB b a = true → a = b := by
  intro a
  induction a with
  | nil =>
    intro b _ hba
    cases b with
    | nil => rfl
    | cons y ys => simp [lexLeB] at hba
  | cons x xs ih =>
    intro b hab hba
    cases b with
    | nil => simp [lexLeB] at hab
    | cons y ys =>
      simp only [lexLeB] at hab hba
      by_cases hxy : x.toNat < y.toNat
      · have h1 : ¬ y.toNat < x.toNat := fun h => absurd hxy (not_lt.mpr (le_of_lt h))
        simp [h1, hxy] at hba
      · by_cases hyx : y.toNat < x.toNat
        · simp [hxy, hyx] at hab
        · have hx : x = y :=
            charToNat_inj (le_antisymm (not_lt.mp hyx) (not_lt.mp hxy))
          simp only [if_neg hxy, if_neg hyx] at hab
          simp only [if_neg hyx, if_neg hxy] at hba
          rw [hx, ih ys hab hba]

/-- `pyStrLe` is total. -/
theorem pyStrLe_total (a b : String) : pyStrLe a b = true ∨ pyStrLe b a = true :=
  lexLeB_total a.data b.data

/-- `sortPair` is symmetric. -/
theorem sortPair_comm (a b : String) (hne : a ≠ b) : sortPair a b = sortPair b a := by
  unfold sortPair
  cases h1 : pyStrLe a b with
  | true =>
    cases h2 : pyStrLe b a with
    | true =>
      exact absurd (String.ext (lexLeB_antisymm a.data b.data h1 h2)) hne
    | false => simp
  | false =>
    cases h2 : pyStrLe b a with
    | true => simp
    | false =>
      rcases pyStrLe_total a b with h | h
      · rw [h1] at h; cases h
      · rw [h2] at h; cases h

/-- A sorted pair of distinct strings is strictly ordered. -/
theorem sortPair_lt {a b : String} (hne : a ≠ b) :
    pyStrLt (sortPair a b).1 (sortPair a b).2 = true := by
  unfold sortPair
  cases h1 : pyStrLe a b with
  | true =>
    simp only [if_true]
    simp [pyStrLt, h1, hne]
  | false =>
    have h2 : pyStrLe b a = true := by
      rcases pyStrLe_total a b with h | h
      · rw [h1] at h; cases h
      · exact h
    have hne' : b ≠ a := fun hh => hne (Eq.symm hh)
    simp only [Bool.false_eq_true, if_false]
    simp [pyStrLt, h2, hne']

/-- When `a < b`, sorting keeps the order. -/
theorem sortPair_of_lt {a b : String} (h : pyStrLt a b = true) :
    sortPair a b = (a, b) := by
  unfold sortPair
  simp only [pyStrLt, Bool.and_eq_true] at h
  rw [h.1]
  simp

/-- The qualifying-pair predicate for a canonical key `k`. -/
def qpred (k : String × String) (p : String × String) : Bool :=
  (!decide (p.1 = p.2)) && decide (sortPair p.1 p.2 = k)

/-- Lookup after the inner pair loop of one document. -/
theorem lookupVal_foldPairs (d : String) (k : String × String) :
    ∀ (ps : List (String × String)) (m : List ((String × String) × List String)),
    lookupVal (ps.foldl
        (fun m' p => if p.1 = p.2 then m' else appendAssocVal m' (sortPair p.1 p.2) d) m) k =
      lookupVal m k ++ (ps.filter (qpred k)).map (fun _ => d) := by
  intro ps
  induction ps with
  | nil => intro m; simp
  | cons p rest ih =>
    intro m
    simp only [List.foldl_cons]
    by_cases hpp : p.1 = p.2
    · have hf : qpred k p = false := by simp [qpred, hpp]
      rw [if_pos hpp, ih, List.filter_cons, hf]
      simp
    · rw [if_neg hpp, ih, lookupVal_appendAssocVal]
      by_cases hk : k = sortPair p.1 p.2
      · have hf : qpred k p = true := by simp [qpred, hpp, Eq.symm hk]
        rw [if_pos hk, List.filter_cons, hf]
        simp
      · have hf : qpred k p = false := by
          simp only [qpred, Bool.and_eq_false_iff, decide_eq_false_iff_not]
          right
          exact fun hh => hk (Eq.symm hh)
        rw [if_neg hk, List.filter_cons, hf]
        simp

/-- Membership in the evidence list after processing one document. -/
theorem mem_lookupVal_addDocPairs (m : List ((String × String) × List String))
    (d : String) (eids : List String) (k : String × String) (e : String) :
    e ∈ lookupVal (addDocPairs m d eids) k ↔
      e ∈ lookupVal m k ∨
        (e = d ∧ ∃ p ∈ pairsOf eids, p.1 ≠ p.2 ∧ sortPair p.1 p.2 = k) := by
  unfold addDocPairs
  rw [lookupVal_foldPairs]
  simp only [List.mem_append, List.mem_map, List.mem_filter, qpred,
    Bool.and_eq_true, Bool.not_eq_true', decide_eq_false_iff_not, decide_eq_true_eq]
  constructor
  · rintro (h | ⟨p, ⟨hp, hq1, hq2⟩, rfl⟩)
    · exact Or.inl h
    · exact Or.inr ⟨rfl, p, hp, hq1, hq2⟩
  · rintro (h | ⟨rfl, p, hp, hq1, hq2⟩)
    · exact Or.inl h
    · exact Or.inr ⟨p, ⟨hp, hq1, hq2⟩, rfl⟩

/-- Membership in the evidence list accumulated over a document list. -/
theorem mem_lookupVal_foldDocs (k : String × String) (e : String) :
    ∀ (docs : List (String × List String)) (m : List ((String × String) × List String)),
    e ∈ lookupVal (docs.foldl (fun m de => addDocPairs m de.1 de.2) m) k ↔
      e ∈ lookupVal m k ∨
        ∃ de ∈ docs, de.1 = e ∧
          ∃ p ∈ pairsOf de.2, p.1 ≠ p.2 ∧ sortPair p.1 p.2 = k := by
  intro docs
  induction docs with
  | nil => intro m; simp
  | cons de rest ih =>
    intro m
    simp only [List.foldl_cons]
    rw [ih, mem_lookupVal_addDocPairs]
    constructor
    · rintro ((h | ⟨rfl, p, hp, hq⟩) | ⟨de', hde', he, hq⟩)
      · exact Or.inl h
      · exact Or.inr ⟨de, List.mem_cons_self _ _, rfl, p, hp, hq⟩
      · exact Or.inr ⟨de', List.mem_cons_of_mem _ hde', he, hq⟩
    · rintro (h | ⟨de', hde', he, hq⟩)
      · exact Or.inl (Or.inl h)
      · rcases List.mem_cons.mp hde' with rfl | hde''
        · exact Or.inl (Or.inr ⟨Eq.symm he, hq⟩)
        · exact Or.inr ⟨de', hde'', he, hq⟩

/-- Every key of the accumulated pair map is strictly sorted. -/
theorem sortedKeys_foldPairs (d : String) :
    ∀ (ps : List (String × String)) (m : List ((String × String) × List String)),
    (∀ kv ∈ m, pyStrLt kv.1.1 kv.1.2 = true) →
    ∀ kv ∈ ps.foldl
        (fun m' p => if p.1 = p.2 then m' else appendAssocVal m' (sortPair p.1 p.2) d) m,
      pyStrLt kv.1.1 kv.1.2 = true := by
  intro ps
  induction ps with
  | nil => intro m hm; exact hm
  | cons p rest ih =>
    intro m hm
    simp only [List.foldl_cons]
    by_cases hpp : p.1 = p.2
    · rw [if_pos hpp]; exact ih m hm
    · rw [if_neg hpp]
      refine ih _ ?_
      intro kv hkv
      rcases mem_appendAssocVal hkv with hk | hk
      · rw [hk]; exact sortPair_lt hpp
      · exact hm kv hk

/-- Every key of `pairEvidence` is strictly sorted. -/
theorem sortedKeys_pairEvidence :
    ∀ (docs : List (String × List String)) (m : List ((String × String) × List String)),
    (∀ kv ∈ m, pyStrLt kv.1.1 kv.1.2 = true) →
    ∀ kv ∈ docs.foldl (fun m de => addDocPairs m de.1 de.2) m,
      pyStrLt kv.1.1 kv.1.2 = true := by
  intro docs
  induction docs with
  | nil => intro m hm; exact hm
  | cons de rest ih =>
    intro m hm
    simp only [List.foldl_cons]
    exact ih _ (sortedKeys_foldPairs de.1 (pairsOf de.2) m hm)

/-- The inner pair loop preserves distinct keys. -/
theorem keysNodup_foldPairs (d : String) :
    ∀ (ps : List (String × String)) (m : List ((String × String) × List String)),
    (m.map Prod.fst).Nodup →
    ((ps.foldl
        (fun m' p => if p.1 = p.2 then m' else appendAssocVal m' (sortPair p.1 p.2) d)
        m).map Prod.fst).Nodup := by
  intro ps
  induction ps with
  | nil => intro m hm; exact hm
  | cons p rest ih =>
    intro m hm
    simp only [List.foldl_cons]
    by_cases hpp : p.1 = p.2
    · rw [if_pos hpp]; exact ih m hm
    · rw [if_neg hpp]
      exact ih _ (keysNodup_appendAssocVal hm _ _)

/-- `pairEvidence` has distinct keys. -/
theorem keysNodup_foldDocs :
    ∀ (docs : List (String × List String)) (m : List ((String × String) × List String)),
    (m.map Prod.fst).Nodup →
    ((docs.foldl (fun m de => addDocPairs m de.1 de.2) m).map Prod.fst).Nodup := by
  intro docs
  induction docs with
  | nil => intro m hm; exact hm
  | cons de rest ih =>
    intro m hm
    simp only [List.foldl_cons]
    exact ih _ (keysNodup_foldPairs de.1 (pairsOf de.2) m hm)

/-- For a strictly sorted key, a qualifying index pair exists exactly when
both components are mentioned. -/
theorem qualPair_iff {k : String × String} (hk : pyStrLt k.1 k.2 = true)
    (eids : List String) :
    (∃ p ∈ pairsOf eids, p.1 ≠ p.2 ∧ sortPair p.1 p.2 = k) ↔
      k.1 ∈ eids ∧ k.2 ∈ eids := by
  constructor
  · rintro ⟨p, hp, _, hsp⟩
    obtain ⟨h1, h2⟩ := mem_of_pairsOf hp
    unfold sortPair at hsp
    split_ifs at hsp
    · rw [← hsp]; exact ⟨h1, h2⟩
    · rw [← hsp]; exact ⟨h2, h1⟩
  · rintro ⟨h1, h2⟩
    have hne := pyStrLt_ne hk
    rcases pairsOf_of_mem h1 h2 hne with hp | hp
    · refine ⟨(k.1, k.2), hp, hne, ?_⟩
      rw [sortPair_of_lt hk]
    · have hne' : k.2 ≠ k.1 := fun hh => hne (Eq.symm hh)
      refine ⟨(k.2, k.1), hp, hne', ?_⟩
      rw [sortPair_comm k.2 k.1 hne', sortPair_of_lt hk]

/-- C2: every relationship built by `_build_relationships` has strictly
sorted (hence distinct) endpoints, deduplicated evidence consisting exactly
of the documents mentioning both endpoints, evidence_count = |evidence| =
weight, the type tag determined by whether the endpoint types differ, and
confidence min(0.95, 0.7 + 0.05·min(evidence_count, 5)). -/
theorem c2_relationships (entities : List EntREx) (raws : List (String × RawEnt))
    (r : RelRec) (hr : r ∈ buildRelationships entities raws) :
    pyStrLt r.source_entity_id r.target_entity_id = true ∧
    r.source_entity_id ≠ r.target_entity_id ∧
    r.evidence_doc_ids.Nodup ∧
    (∀ d, d ∈ r.evidence_doc_ids ↔
      ∃ de ∈ docToEids entities raws, de.1 = d ∧
        r.source_entity_id ∈ de.2 ∧ r.target_entity_id ∈ de.2) ∧
    r.evidence_count = r.evidence_doc_ids.length ∧
    r.weight = (r.evidence_count : ℚ) ∧
    r.relationship_type =
      (if lookupD (eidToType entities) r.source_entity_id "" ≠
          lookupD (eidToType entities) r.target_entity_id "" then "ASSOCIATED_WITH"
        else "CO_OCCURRENCE") ∧
    r.confidence = min 0.95 (0.7 + 0.05 * ((min r.evidence_count 5 : ℕ) : ℚ)) := by
  unfold buildRelationships at hr
  rw [List.mem_map] at hr
  obtain ⟨pe, hpe, rfl⟩ := hr
  have hsorted : pyStrLt pe.1.1 pe.1.2 = true := by
    unfold pairEvidence at hpe
    exact sortedKeys_pairEvidence (docToEids entities raws) [] (by simp) pe hpe
  have hnodup :
      (((pairEvidence (docToEids entities raws)).map Prod.fst)).Nodup := by
    unfold pairEvidence
    exact keysNodup_foldDocs (docToEids entities raws) [] (by simp)
  have hlook : lookupVal (pairEvidence (docToEids entities raws)) pe.1 = pe.2 := by
    unfold lookupVal
    rw [lookupOpt_of_mem hnodup hpe]
    rfl
  refine ⟨hsorted, pyStrLt_ne hsorted, nodup_pyDedup _, ?_, rfl, rfl, rfl, rfl⟩
  intro d
  show d ∈ pyDedup pe.2 ↔ _
  rw [mem_pyDedup, ← hlook]
  unfold pairEvidence
  rw [mem_lookupVal_foldDocs]
  simp only [lookupVal, lookupOpt, Option.getD_none, List.not_mem_nil, false_or]
  constructor
  · rintro ⟨de, hde, heq, hq⟩
    exact ⟨de, hde, heq, ((qualPair_iff hsorted de.2).mp hq).1,
      ((qualPair_iff hsorted de.2).mp hq).2⟩
  · rintro ⟨de, hde, heq, h1, h2⟩
    exact ⟨de, hde, heq, (qualPair_iff hsorted de.2).mpr ⟨h1, h2⟩⟩

/-- Concrete entities for the C2 witness. -/
def c2Entities : List EntREx :=
  [⟨"e1", "alice", "alice", "PERSON"⟩, ⟨"e2", "acme", "acme", "ORG"⟩]

/-- Concrete raw mentions for the C2 witness: both entities in two docs. -/
def c2Raws : List (String × RawEnt) :=
  [("d1", ⟨"alice", "PERSON", "alice"⟩), ("d1", ⟨"acme", "ORG", "acme"⟩),
   ("d2", ⟨"alice", "PERSON", "alice"⟩), ("d2", ⟨"acme", "ORG", "acme"⟩)]

instance : Inhabited RelRec := ⟨⟨"", "", "", 0, [], 0, 0⟩⟩

/-- The list of relationships built from `c2Entities`/`c2Raws` is nonempty. -/
theorem c2Rels_ne_nil : buildRelationships c2Entities c2Raws ≠ [] := by decide

/-- The single relationship built from `c2Entities`/`c2Raws`. -/
def c2Rel : RelRec := (buildRelationships c2Entities c2Raws).head c2Rels_ne_nil

/-- Witness for C2 on the concrete co-occurrence example. -/
theorem c2_relationships_witness :
    pyStrLt c2Rel.source_entity_id c2Rel.target_entity_id = true ∧
    c2Rel.source_entity_id ≠ c2Rel.target_entity_id ∧
    c2Rel.evidence_doc_ids.Nodup ∧
    (∀ d, d ∈ c2Rel.evidence_doc_ids ↔
      ∃ de ∈ docToEids c2Entities c2Raws, de.1 = d ∧
        c2Rel.source_entity_id ∈ de.2 ∧ c2Rel.target_entity_id ∈ de.2) ∧
    c2Rel.evidence_count = c2Rel.evidence_doc_ids.length ∧
    c2Rel.weight = (c2Rel.evidence_count : ℚ) ∧
    c2Rel.relationship_type =
      (if lookupD (eidToType c2Entities) c2Rel.source_entity_id "" ≠
          lookupD (eidToType c2Entities) c2Rel.target_entity_id "" then "ASSOCIATED_WITH"
        else "CO_OCCURRENCE") ∧
    c2Rel.confidence = min 0.95 (0.7 + 0.05 * ((min c2Rel.evidence_count 5 : ℕ) : ℚ)) :=
  c2_relationships c2Entities c2Raws c2Rel (List.head_mem c2Rels_ne_nil)

/-! ## Semantic linker: claim C5

Embedding of `SemanticLinkerAgent.process` (`src/agents/semantic_linker.py`,
lines 89–160) together with `_shared_entities_for_pair`, `_shared_concepts`
and the stop-word table.  The vector store is the oracle `qr` mapping a
query text to its hit list; a Python set is a first-occurrence-deduplicated
list (the claims never depend on set enumeration order). -/

/-- Stop words of `semantic_linker.py` lines 19–22 (duplicates kept; only
membership matters). -/
def STOP_WORDS : List String :=
  ["a", "o", "e", "de", "da", "do", "que", "e", "em", "um", "para", "com",
   "não", "os", "as", "umas", "dos", "das", "pela", "ao", "à", "no", "na",
   "the", "and", "of", "to", "in", "is", "for", "on", "with", "as", "by",
   "at", "be", "this", "that", "it", "from", "or"]

/-- The character class of the `[a-zA-ZÀ-ÿ]{3,}` tokenizer. -/
def isConceptChar (c : Char) : Bool :=
  ('a' ≤ c ∧ c ≤ 'z') ∨ ('A' ≤ c ∧ c ≤ 'Z') ∨ (0xC0 ≤ c.toNat ∧ c.toNat ≤ 0xFF)

/-- `re.findall(r"[a-zA-ZÀ-ÿ]{3,}", t.lower())`: maximal letter runs of
length ≥ 3 in the lowered text. -/
def tokenizeWords (t : String) : List String :=
  (((pyLower t).data.splitOnP (fun c => !isConceptChar c)).filter
    (fun w => w.length ≥ 3)).map (fun w => ⟨w⟩)

/-- `_shared_concepts` (semantic_linker.py lines 76–83): content words of
length ≥ 4, not stop words, present in the first 3000 characters of both. -/
def sharedConcepts (t1 t2 : String) (topn : ℕ) : List String :=
  let tok := fun t =>
    pyDedup ((tokenizeWords (strTake t 3000)).filter
      (fun w => w ∉ STOP_WORDS ∧ w.length ≥ 4))
  ((tok t1).filter (fun w => w ∈ tok t2)).take topn

/-- An entity as `_shared_entities_for_pair` reads the `entities` dict. -/
structure SEnt where
  text : String
  documents : List String
  deriving DecidableEq, Repr

/-- `_shared_entities_for_pair` (semantic_linker.py lines 59–73). -/
def sharedEntitiesForPair (doc_i doc_j : String) (entities : List (String × SEnt)) :
    List String :=
  entities.foldl
    (fun out p =>
      if doc_i ∈ p.2.documents ∧ doc_j ∈ p.2.documents then
        (if p.2.text ≠ "" ∧ p.2.text ∉ out then out ++ [p.2.text] else out)
      else out)
    []

/-- A vector-store hit as the loop reads it. -/
structure Hit where
  doc_id : Option String
  distance : Option ℚ
  document : String
  deriving Repr

/-- A semantic link (fields of `core.state.SemanticLink`). -/
structure SLink where
  doc_id_1 : String
  doc_id_2 : String
  similarity_score : ℚ
  link_type : String
  rationale : String
  common_entities : List String
  shared_entities : List String
  shared_concepts : List String
  deriving Repr

/-- Python `s.split()` (whitespace runs). -/
def pySplitWsStr (s : String) : List String :=
  ((s.data.splitOnP isSpaceC).filter (fun w => w ≠ [])).map (fun w => ⟨w⟩)

/-- Linker configuration (threshold, per-document cap, min shared
entities). -/
structure LinkerCfg where
  threshold : ℚ
  maxPerDoc : ℕ
  minShared : ℕ

/-- The canonical unordered pair of a link's endpoints. -/
def pairOfLink (l : SLink) : String × String := sortPair l.doc_id_1 l.doc_id_2

/-- The `for hit in results` loop body (semantic_linker.py lines 122–160):
skip self/seen/low-similarity hits, apply the shared-entity gate, then store
the link and mark the unordered pair as seen. -/
def hitsLoop (cfg : LinkerCfg) (extracted : List (String × String))
    (entities : List (String × SEnt)) (registryKeys : List String)
    (doc_i : String) (text_i : String) :
    List Hit → ℕ → List SLink → List (String × String) →
      List SLink × List (String × String)
  | [], _, links, seen => (links, seen)
  | hit :: rest, cnt, links, seen =>
    if cnt ≥ cfg.maxPerDoc then (links, seen)
    else
      match hit.doc_id with
      | none => hitsLoop cfg extracted entities registryKeys doc_i text_i rest cnt links seen
      | some doc_j =>
        if doc_j = doc_i then
          hitsLoop cfg extracted entities registryKeys doc_i text_i rest cnt links seen
        else
          let pair := sortPair doc_i doc_j
          if pair ∈ seen then
            hitsLoop cfg extracted entities registryKeys doc_i text_i rest cnt links seen
          else
            let sim := match hit.distance with
              | some dist => max 0 (1 - dist)
              | none => (0.5 : ℚ)
            if sim < cfg.threshold then
              hitsLoop cfg extracted entities registryKeys doc_i text_i rest cnt links seen
            else
              let shared_ent := sharedEntitiesForPair doc_i doc_j entities
              if cfg.minShared > 0 ∧ shared_ent ≠ [] ∧ shared_ent.length < cfg.minShared then
                hitsLoop cfg extracted entities registryKeys doc_i text_i rest cnt links seen
              else
                let text_j := strTake (lookupD extracted doc_j "") 2000
                let rationale := strTake hit.document 200
                let link : SLink :=
                  { doc_id_1 := doc_i
                    doc_id_2 := doc_j
                    similarity_score := round4 sim
                    link_type := "semantic"
                    rationale := rationale
                    common_entities :=
                      (registryKeys.filter (fun k => k ∈ pySplitWsStr rationale)).take 5
                    shared_entities := shared_ent
                    shared_concepts := sharedConcepts text_i text_j 10 }
                hitsLoop cfg extracted entities registryKeys doc_i text_i rest (cnt + 1)
                  (links ++ [link]) (seen ++ [pair])

/-- The `for i, doc_i in enumerate(doc_ids)` loop (lines 111–121): query the
store with the first 2000 characters and process the hits, with the
per-document counter reset. -/
def linkerLoop (cfg : LinkerCfg) (qr : String → List Hit)
    (extracted : List (String × String)) (entities : List (String × SEnt))
    (registryKeys : List String) :
    List String → List SLink → List (String × String) → List SLink
  | [], links, _ => links
  | doc_i :: rest, links, seen =>
    let text_i := strTake (lookupD extracted doc_i "") 2000
    if text_i = "" then linkerLoop cfg qr extracted entities registryKeys rest links seen
    else
      let r := hitsLoop cfg extracted entities registryKeys doc_i text_i (qr text_i) 0
        links seen
      linkerLoop cfg qr extracted entities registryKeys rest r.1 r.2

/-- The linking phase of `SemanticLinkerAgent.process`: fewer than two
documents leave the links unchanged; otherwise run the loop from the given
initial links with an empty seen-pair set. -/
def runLinker (cfg : LinkerCfg) (qr : String → List Hit)
    (extracted : List (String × String)) (entities : List (String × SEnt))
    (registryKeys : List String) (init : List SLink) : List SLink :=
  let doc_ids := extracted.map Prod.fst
  if doc_ids.length < 2 then init
  else linkerLoop cfg qr extracted entities registryKeys doc_ids init []

/-- `rhe` never rounds below an integer lower bound. -/
theorem rhe_ge_int {x : ℚ} {t : ℤ} (h : (t : ℚ) ≤ x) : (t : ℚ) ≤ (rhe x : ℚ) := by
  have hfl : t ≤ ⌊x⌋ := Int.le_floor.mpr h
  have hfl2 : (t : ℚ) ≤ (⌊x⌋ : ℚ) := by exact_mod_cast hfl
  simp only [rhe]
  split_ifs with h1 h2 h3 <;> push_cast <;> linarith

/-- Rounding to four decimals cannot cross a threshold that is itself a
multiple of 1/10000. -/
theorem round4_ge {s t : ℚ} (ht : ∃ k : ℤ, t = (k : ℚ) / 10000) (h : t ≤ s) :
    t ≤ round4 s := by
  obtain ⟨k, rfl⟩ := ht
  have hk : (k : ℚ) ≤ s * 10000 := by
    calc (k : ℚ) = (k : ℚ) / 10000 * 10000 := by norm_num
    _ ≤ s * 10000 := mul_le_mul_of_nonneg_right h (by norm_num)
  have hr := rhe_ge_int hk
  rw [round4, div_le_div_iff₀ (by norm_num) (by norm_num)]
  exact mul_le_mul_of_nonneg_right hr (by norm_num)

/-- The per-link property maintained by the linker loops. -/
def linkOk (cfg : LinkerCfg) (l : SLink) : Prop :=
  l.doc_id_1 ≠ l.doc_id_2 ∧ ∃ s : ℚ, cfg.threshold ≤ s ∧ l.similarity_score = round4 s

/-- The hit loop only appends links that satisfy `linkOk`, keeps unordered
pairs unique, and records every produced pair as seen. -/
theorem hitsLoop_inv (cfg : LinkerCfg) (extracted : List (String × String))
    (entities : List (String × SEnt)) (registryKeys : List String)
    (doc_i text_i : String) :
    ∀ (hits : List Hit) (cnt : ℕ) (init prod : List SLink)
      (seen : List (String × String)),
    (∀ l ∈ prod, linkOk cfg l) →
    (prod.map pairOfLink).Nodup →
    (∀ q ∈ prod.map pairOfLink, q ∈ seen) →
    ∃ prod' seen',
      hitsLoop cfg extracted entities registryKeys doc_i text_i hits cnt
          (init ++ prod) seen = (init ++ prod', seen') ∧
      (∀ l ∈ prod', linkOk cfg l) ∧
      (prod'.map pairOfLink).Nodup ∧
      (∀ q ∈ prod'.map pairOfLink, q ∈ seen') := by
  intro hits
  induction hits with
  | nil =>
    intro cnt init prod seen hP hN hS
    exact ⟨prod, seen, rfl, hP, hN, hS⟩
  | cons hit rest ih =>
    intro cnt init prod seen hP hN hS
    by_cases hcnt : cnt ≥ cfg.maxPerDoc
    · refine ⟨prod, seen, ?_, hP, hN, hS⟩
      simp only [hitsLoop, if_pos hcnt]
    · cases hdoc : hit.doc_id with
      | none =>
        obtain ⟨prod', seen', heq, h1, h2, h3⟩ := ih cnt init prod seen hP hN hS
        refine ⟨prod', seen', ?_, h1, h2, h3⟩
        simp only [hitsLoop, if_neg hcnt, hdoc]
        exact heq
      | some doc_j =>
        by_cases hji : doc_j = doc_i
        · obtain ⟨prod', seen', heq, h1, h2, h3⟩ := ih cnt init prod seen hP hN hS
          refine ⟨prod', seen', ?_, h1, h2, h3⟩
          simp only [hitsLoop, if_neg hcnt, hdoc, if_pos hji]
          exact heq
        · by_cases hseen : sortPair doc_i doc_j ∈ seen
          · obtain ⟨prod', seen', heq, h1, h2, h3⟩ := ih cnt init prod seen hP hN hS
            refine ⟨prod', seen', ?_, h1, h2, h3⟩
            simp only [hitsLoop, if_neg hcnt, hdoc, if_neg hji, if_pos hseen]
            exact heq
          · cases hdist : hit.distance with
            | some d =>
              by_cases hsim : max 0 (1 - d) < cfg.threshold
              · obtain ⟨prod', seen', heq, h1, h2, h3⟩ := ih cnt init prod seen hP hN hS
                refine ⟨prod', seen', ?_, h1, h2, h3⟩
                simp only [hitsLoop, if_neg hcnt, hdoc, if_neg hji, if_neg hseen, hdist,
                  if_pos hsim]
                exact heq
              · by_cases hms : cfg.minShared > 0 ∧
                    sharedEntitiesForPair doc_i doc_j entities ≠ [] ∧
                    (sharedEntitiesForPair doc_i doc_j entities).length < cfg.minShared
                · obtain ⟨prod', seen', heq, h1, h2, h3⟩ := ih cnt init prod seen hP hN hS
                  refine ⟨prod', seen', ?_, h1, h2, h3⟩
                  simp only [hitsLoop, if_neg hcnt, hdoc, if_neg hji, if_neg hseen, hdist,
                    if_neg hsim, if_pos hms]
                  exact heq
                · set link : SLink :=
                      { doc_id_1 := doc_i, doc_id_2 := doc_j,
                        similarity_score := round4 (max 0 (1 - d)),
                        link_type := "semantic",
                        rationale := strTake hit.document 200,
                        common_entities := (registryKeys.filter
                          (fun k => k ∈ pySplitWsStr (strTake hit.document 200))).take 5,
                        shared_entities := sharedEntitiesForPair doc_i doc_j entities,
                        shared_concepts := sharedConcepts text_i
                          (strTake (lookupD extracted doc_j "") 2000) 10 } with hlink
                  have hP' : ∀ l ∈ prod ++ [link], linkOk cfg l := by
                    intro l hl
                    rcases List.mem_append.mp hl with hl | hl
                    · exact hP l hl
                    · rw [List.mem_singleton.mp hl, hlink]
                      exact ⟨fun hh => hji (Eq.symm hh), max 0 (1 - d),
                        not_lt.mp hsim, rfl⟩
                  have hN' : ((prod ++ [link]).map pairOfLink).Nodup := by
                    rw [List.map_append]
                    refine List.Nodup.append hN (by simp) ?_
                    intro q hq hq'
                    simp only [List.map_cons, List.map_nil, List.mem_singleton] at hq'
                    have hqs : q ∈ seen := hS q hq
                    rw [hq', hlink] at hqs
                    exact hseen (by simpa [pairOfLink] using hqs)
                  have hS' : ∀ q ∈ (prod ++ [link]).map pairOfLink,
                      q ∈ seen ++ [sortPair doc_i doc_j] := by
                    intro q hq
                    rw [List.map_append] at hq
                    rcases List.mem_append.mp hq with hq | hq
                    · exact List.mem_append_left _ (hS q hq)
                    · simp only [List.map_cons, List.map_nil, List.mem_singleton] at hq
                      rw [hq, hlink]
                      simp [pairOfLink]
                  obtain ⟨prod', seen', heq, h1, h2, h3⟩ :=
                    ih (cnt + 1) init (prod ++ [link]) (seen ++ [sortPair doc_i doc_j])
                      hP' hN' hS'
                  refine ⟨prod', seen', ?_, h1, h2, h3⟩
                  simp only [hitsLoop, if_neg hcnt, hdoc, if_neg hji, if_neg hseen, hdist,
                    if_neg hsim, if_neg hms]
                  rw [← List.append_assoc] at heq
                  exact heq
            | none =>
              by_cases hsim : (0.5 : ℚ) < cfg.threshold
              · obtain ⟨prod', seen', heq, h1, h2, h3⟩ := ih cnt init prod seen hP hN hS
                refine ⟨prod', seen', ?_, h1, h2, h3⟩
                simp only [hitsLoop, if_neg hcnt, hdoc, if_neg hji, if_neg hseen, hdist,
                  if_pos hsim]
                exact heq
              · by_cases hms : cfg.minShared > 0 ∧
                    sharedEntitiesForPair doc_i doc_j entities ≠ [] ∧
                    (sharedEntitiesForPair doc_i doc_j entities).length < cfg.minShared
                · obtain ⟨prod', seen', heq, h1, h2, h3⟩ := ih cnt init prod seen hP hN hS
                  refine ⟨prod', seen', ?_, h1, h2, h3⟩
                  simp only [hitsLoop, if_neg hcnt, hdoc, if_neg hji, if_neg hseen, hdist,
                    if_neg hsim, if_pos hms]
                  exact heq
                · set link : SLink :=
                      { doc_id_1 := doc_i, doc_id_2 := doc_j,
                        similarity_score := round4 (0.5 : ℚ),
                        link_type := "semantic",
                        rationale := strTake hit.document 200,
                        common_entities := (registryKeys.filter
                          (fun k => k ∈ pySplitWsStr (strTake hit.document 200))).take 5,
                        shared_entities := sharedEntitiesForPair doc_i doc_j entities,
                        shared_concepts := sharedConcepts text_i
                          (strTake (lookupD extracted doc_j "") 2000) 10 } with hlink
                  have hP' : ∀ l ∈ prod ++ [link], linkOk cfg l := by
                    intro l hl
                    rcases List.mem_append.mp hl with hl | hl
                    · exact hP l hl
                    · rw [List.mem_singleton.mp hl, hlink]
                      exact ⟨fun hh => hji (Eq.symm hh), (0.5 : ℚ),
                        not_lt.mp hsim, rfl⟩
                  have hN' : ((prod ++ [link]).map pairOfLink).Nodup := by
                    rw [List.map_append]
                    refine List.Nodup.append hN (by simp) ?_
                    intro q hq hq'
                    simp only [List.map_cons, List.map_nil, List.mem_singleton] at hq'
                    have hqs : q ∈ seen := hS q hq
                    rw [hq', hlink] at hqs
                    exact hseen (by simpa [pairOfLink] using hqs)
                  have hS' : ∀ q ∈ (prod ++ [link]).map pairOfLink,
                      q ∈ seen ++ [sortPair doc_i doc_j] := by
                    intro q hq
                    rw [List.map_append] at hq
                    rcases List.mem_append.mp hq with hq | hq
                    · exact List.mem_append_left _ (hS q hq)
                    · simp only [List.map_cons, List.map_nil, List.mem_singleton] at hq
                      rw [hq, hlink]
                      simp [pairOfLink]
                  obtain ⟨prod', seen', heq, h1, h2, h3⟩ :=
                    ih (cnt + 1) init (prod ++ [link]) (seen ++ [sortPair doc_i doc_j])
                      hP' hN' hS'
                  refine ⟨prod', seen', ?_, h1, h2, h3⟩
                  simp only [hitsLoop, if_neg hcnt, hdoc, if_neg hji, if_neg hseen, hdist,
                    if_neg hsim, if_neg hms]
                  rw [← List.append_assoc] at heq
                  exact heq

/-- The document loop preserves the linker invariant. -/
theorem linkerLoop_inv (cfg : LinkerCfg) (qr : String → List Hit)
    (extracted : List (String × String)) (entities : List (String × SEnt))
    (registryKeys : List String) :
    ∀ (docs : List String) (init prod : List SLink) (seen : List (String × String)),
    (∀ l ∈ prod, linkOk cfg l) →
    (prod.map pairOfLink).Nodup →
    (∀ q ∈ prod.map pairOfLink, q ∈ seen) →
    ∃ prod',
      linkerLoop cfg qr extracted entities registryKeys docs (init ++ prod) seen =
        init ++ prod' ∧
      (∀ l ∈ prod', linkOk cfg l) ∧
      (prod'.map pairOfLink).Nodup := by
  intro docs
  induction docs with
  | nil =>
    intro init prod seen hP hN _
    exact ⟨prod, rfl, hP, hN⟩
  | cons doc_i rest ih =>
    intro init prod seen hP hN hS
    by_cases htext : strTake (lookupD extracted doc_i "") 2000 = ""
    · obtain ⟨prod', heq, h1, h2⟩ := ih init prod seen hP hN hS
      refine ⟨prod', ?_, h1, h2⟩
      simp only [linkerLoop, if_pos htext]
      exact heq
    · obtain ⟨prod1, seen1, heq1, hP1, hN1, hS1⟩ :=
        hitsLoop_inv cfg extracted entities registryKeys doc_i
          (strTake (lookupD extracted doc_i "") 2000)
          (qr (strTake (lookupD extracted doc_i "") 2000)) 0 init prod seen hP hN hS
      obtain ⟨prod', heq', h1, h2⟩ := ih init prod1 seen1 hP1 hN1 hS1
      refine ⟨prod', ?_, h1, h2⟩
      simp only [linkerLoop, if_neg htext]
      rw [heq1]
      exact heq'

/-- C5 amended: every link stored by the semantic-linker stage joins two
*distinct* documents (the unordered pair is canonicalized only for
deduplication — the stored order is the encounter order, not sorted), its
similarity score is the 4-decimal rounding of a similarity that passed the
threshold check (hence is still ≥ the threshold whenever the configured
threshold has at most four decimals, as the default 0.75 does), and at most
one link is produced per unordered pair of documents. -/
theorem c5_semantic_links (cfg : LinkerCfg) (qr : String → List Hit)
    (extracted : List (String × String)) (entities : List (String × SEnt))
    (registryKeys : List String) (init : List SLink)
    (hth : ∃ t : ℤ, cfg.threshold = (t : ℚ) / 10000) :
    ∃ prod : List SLink,
      runLinker cfg qr extracted entities registryKeys init = init ++ prod ∧
      (∀ l ∈ prod,
        l.doc_id_1 ≠ l.doc_id_2 ∧
        cfg.threshold ≤ l.similarity_score ∧
        ∃ s : ℚ, cfg.threshold ≤ s ∧ l.similarity_score = round4 s) ∧
      (prod.map pairOfLink).Nodup := by
  simp only [runLinker]
  split_ifs with hlen
  · exact ⟨[], by simp, by simp, by simp⟩
  · obtain ⟨prod', heq, h1, h2⟩ :=
      linkerLoop_inv cfg qr extracted entities registryKeys
        (extracted.map Prod.fst) init [] [] (by simp) (by simp) (by simp)
    rw [List.append_nil] at heq
    refine ⟨prod', heq, ?_, h2⟩
    intro l hl
    obtain ⟨hne, s, hs, hscore⟩ := h1 l hl
    refine ⟨hne, ?_, s, hs, hscore⟩
    rw [hscore]
    exact round4_ge hth hs

/-- Concrete vector-store oracle for the C5 examples. -/
def c5qr : String → List Hit :=
  fun t => if t = "xx" then [⟨some "a", some 0, "r"⟩] else []

/-- Concrete extracted texts for the C5 examples: document "b" is iterated
first and its query hits document "a". -/
def c5Extracted : List (String × String) := [("b", "xx"), ("a", "yy")]

/-- C5 counterexample: the stored link is `("b", "a")` with
`doc_id_1 > doc_id_2`, so "doc_id_1 < doc_id_2" fails on the code. -/
theorem c5_counterexample :
    ((runLinker ⟨3/4, 50, 2⟩ c5qr c5Extracted [] [] []).map
      (fun l => (l.doc_id_1, l.doc_id_2))) = [("b", "a")] ∧
    pyStrLt "b" "a" = false := by
  constructor
  · have hsim : ¬ (max (0:ℚ) (1 - (0:ℚ)) < 3/4) := by norm_num
    simp only [runLinker, c5Extracted, c5qr, linkerLoop, hitsLoop]
    norm_num [strTake, lookupD, lookupOpt, sortPair, pyStrLe, lexLeB,
      sharedEntitiesForPair, hsim]
    have hx : ¬ ((⟨['x', 'x']⟩ : String) = "") := by decide
    have hab : ¬ (("a" : String) = "b") := by decide
    rw [if_neg hx, if_neg hab]
    rfl
  · decide

/-- Witness for C5 at the concrete run (threshold 0.75 = 7500/10000). -/
theorem c5_semantic_links_witness :
    ∃ prod : List SLink,
      runLinker ⟨3/4, 50, 2⟩ c5qr c5Extracted [] [] [] = [] ++ prod ∧
      (∀ l ∈ prod,
        l.doc_id_1 ≠ l.doc_id_2 ∧
        (3/4 : ℚ) ≤ l.similarity_score ∧
        ∃ s : ℚ, (3/4 : ℚ) ≤ s ∧ l.similarity_score = round4 s) ∧
      (prod.map pairOfLink).Nodup :=
  c5_semantic_links ⟨3/4, 50, 2⟩ c5qr c5Extracted [] [] [] ⟨7500, by norm_num⟩

/-! ## Document ingestion and the persistence ledger: claims C3 and C4

Embedding of the per-file loop of `DocumentIngestionAgent.process`
(`src/agents/ingestion.py`, lines 175–264) and of the SQLite ledger
(`src/core/persistence.py`).  The extraction dispatch (`_process_one` and
everything it calls) is the oracle `extract`: it returns either a result
tuple (text, status, error message, optional crypto finding) or a raised
exception message (the outer `except` of lines 261–264); text normalization
(`_normalize_text`) is the oracle `nrm`.  Both oracles are deterministic
functions of the file, matching a fixed file system.  Document records are
reduced to the fields the claims speak about. -/

/-- Ledger statuses (persistence.py lines 20–23; PENDING is never written by
ingestion). -/
inductive LStatus
  | PROCESSING
  | DONE
  | FAILED
  deriving DecidableEq, Repr

/-- Upsert into an association list, in place for an existing key. -/
def updAssocWith {κ β : Type} [DecidableEq κ] : List (κ × β) → κ → (Option β → β) →
    List (κ × β)
  | [], k, f => [(k, f none)]
  | kv :: rest, k, f =>
    if kv.1 = k then (k, f (some kv.2)) :: rest else kv :: updAssocWith rest k f

/-- A ledger row: status and retry count, keyed by (doc_hash,
investigation_id). -/
abbrev Ledger := List ((String × String) × (LStatus × ℕ))

/-- `log_doc_start` (persistence.py lines 50–67): status PROCESSING, retry
count kept (0 on insert). -/
def logDocStart (led : Ledger) (h inv : String) : Ledger :=
  updAssocWith led (h, inv) (fun o => (LStatus.PROCESSING, ((o.map Prod.snd).getD 0)))

/-- `log_doc_success` (lines 70–87): status DONE, retry count kept. -/
def logDocSuccess (led : Ledger) (h inv : String) : Ledger :=
  updAssocWith led (h, inv) (fun o => (LStatus.DONE, ((o.map Prod.snd).getD 0)))

/-- `log_doc_failed` (lines 90–108): status FAILED, retry count incremented
(1 on insert). -/
def logDocFailed (led : Ledger) (h inv : String) : Ledger :=
  updAssocWith led (h, inv)
    (fun o => (LStatus.FAILED, match o with | none => 1 | some p => p.2 + 1))

/-- `get_doc_status` (lines 111–120). -/
def getDocStatus (led : Ledger) (h inv : String) : Option LStatus :=
  (lookupOpt led (h, inv)).map Prod.fst

/-- A file of the uploads directory: name, lower-cased suffix, size in
bytes, content hash (`_calculate_hash`), absolute path. -/
structure FileRec where
  name : String
  suffix : String
  size : ℕ
  hash : String
  path : String
  deriving DecidableEq, Repr

/-- Outcome of the per-file body after `log_doc_start`: either the
`_process_one` result (text, status, error message, optional crypto
finding), or an exception escaping to the outer handler (lines 261–264). -/
inductive ExOutcome
  | res (text : String) (status : String) (errMsg : Option String)
      (crypto : Option String)
  | exc (msg : String)
  deriving DecidableEq, Repr

/-- The stored document fields the claims speak about. -/
structure MetaRec where
  doc_id : String
  filename : String
  file_hash : String
  status : String
  error_message : Option String
  deriving DecidableEq, Repr

/-- Ingestion configuration (`SUPPORTED_FORMATS`, max size in bytes). -/
structure IngCfg where
  supported : List String
  maxSize : ℕ
  deriving Repr

/-- The ingestion state fields written by the loop. -/
structure IngSt where
  meta : List (String × MetaRec)
  extracted : List (String × String)
  processed : List (String × String)
  raw : List (String × String)
  crypto : List String
  quarantined : List String
  ledger : Ledger
  elog : List String
  deriving DecidableEq, Repr

/-- The empty ingestion state. -/
def emptyIngSt : IngSt := ⟨[], [], [], [], [], [], [], []⟩

/-- The status rewrite of ingestion.py lines 210–212: empty text from a
supported type demotes `success` to `partial`. -/
def adjStatus (text status : String) : String :=
  if text = "" ∧ status ≠ "encrypted" ∧ status ≠ "failed" then
    (if status = "success" then "partial" else status)
  else status

/-- One iteration of the `for file_path in files` loop (ingestion.py lines
175–264): the four skip checks, ledger bookkeeping, extraction, the
encrypted-finding append, quarantine of failed files, and the document
record writes. -/
def processFile (cfg : IngCfg) (extract : FileRec → ExOutcome) (nrm : String → String)
    (inv : String) (st : IngSt) (X : List String) (f : FileRec) :
    IngSt × List String :=
  if f.suffix ∉ cfg.supported then (st, X)
  else if cfg.maxSize < f.size then (st, X)
  else if f.hash ∈ X then (st, X)
  else if getDocStatus st.ledger f.hash inv = some LStatus.DONE then (st, X)
  else
    let X' := X ++ [f.hash]
    let st1 := { st with ledger := logDocStart st.ledger f.hash inv }
    match extract f with
    | .exc msg =>
      ({ st1 with
          ledger := logDocFailed st1.ledger f.hash inv
          elog := st1.elog ++ ["Ingestion doc error " ++ f.name ++ ": " ++ msg] }, X')
    | .res text status errMsg crypto =>
      let doc_id := strTake f.hash 16
      let st2 := { st1 with
        crypto := st1.crypto ++
          (match crypto with
            | some c => if status = "encrypted" then [c] else []
            | none => []) }
      let st3 := if status = "failed" then
          { st2 with quarantined := st2.quarantined ++ [f.name] }
        else st2
      let status2 := adjStatus text status
      let text2 := if text = "" then "" else nrm text
      let st4 := { st3 with
        meta := updAssoc st3.meta doc_id ⟨doc_id, f.name, f.hash, status2, errMsg⟩
        extracted := updAssoc st3.extracted doc_id text2
        processed := st3.processed ++ [(doc_id, text2)]
        raw := st3.raw ++ [(doc_id, f.path)] }
      let st5 := if status2 = "success" ∨ status2 = "partial" then
          { st4 with ledger := logDocSuccess st4.ledger f.hash inv }
        else
          { st4 with ledger := logDocFailed st4.ledger f.hash inv }
      (st5, X')

/-- The hashes present in the stored document metadata (ingestion.py lines
161–166). -/
def metaHashes (st : IngSt) : List String := st.meta.map (fun kv => kv.2.file_hash)

/-- The whole ingestion loop: seed the seen-hash set from the stored
metadata, then fold over the directory listing. -/
def ingestRun (cfg : IngCfg) (extract : FileRec → ExOutcome) (nrm : String → String)
    (inv : String) (st : IngSt) (files : List FileRec) : IngSt :=
  (files.foldl (fun p f => processFile cfg extract nrm inv p.1 p.2 f)
    (st, metaHashes st)).1

/-- Updating a key makes it the value found. -/
theorem lookupOpt_updAssoc_self {κ β : Type} [DecidableEq κ]
    (m : List (κ × β)) (k : κ) (v : β) : lookupOpt (updAssoc m k v) k = some v := by
  induction m with
  | nil => simp [updAssoc, lookupOpt]
  | cons kv rest ih =>
    by_cases hk : kv.1 = k
    · simp [updAssoc, lookupOpt, hk]
    · simp only [updAssoc, if_neg hk, lookupOpt]
      exact ih

/-- Updating one key leaves other lookups unchanged. -/
theorem lookupOpt_updAssoc_other {κ β : Type} [DecidableEq κ]
    (m : List (κ × β)) (k k' : κ) (v : β) (hk : k' ≠ k) :
    lookupOpt (updAssoc m k v) k' = lookupOpt m k' := by
  induction m with
  | nil => simp [updAssoc, lookupOpt, Ne.symm hk]
  | cons kv rest ih =>
    by_cases hkk : kv.1 = k
    · have : ¬ (k = k') := fun h => hk (Eq.symm h)
      simp [updAssoc, lookupOpt, hkk, this]
    · simp only [updAssoc, if_neg hkk, lookupOpt]
      by_cases hkv : kv.1 = k'
      · simp [hkv]
      · rw [if_neg hkv, if_neg hkv]
        exact ih

/-- `updAssocWith` rewrites exactly the requested key. -/
theorem lookupOpt_updAssocWith_self {κ β : Type} [DecidableEq κ]
    (m : List (κ × β)) (k : κ) (f : Option β → β) :
    lookupOpt (updAssocWith m k f) k = some (f (lookupOpt m k)) := by
  induction m with
  | nil => simp [updAssocWith, lookupOpt]
  | cons kv rest ih =>
    by_cases hk : kv.1 = k
    · simp [updAssocWith, lookupOpt, hk]
    · simp only [updAssocWith, if_neg hk, lookupOpt]
      exact ih

/-- `updAssocWith` leaves other keys unchanged. -/
theorem lookupOpt_updAssocWith_other {κ β : Type} [DecidableEq κ]
    (m : List (κ × β)) (k k' : κ) (f : Option β → β) (hk : k' ≠ k) :
    lookupOpt (updAssocWith m k f) k' = lookupOpt m k' := by
  induction m with
  | nil => simp [updAssocWith, lookupOpt, Ne.symm hk]
  | cons kv rest ih =>
    by_cases hkk : kv.1 = k
    · have h2 : ¬ (k = k') := fun h => hk (Eq.symm h)
      simp [updAssocWith, lookupOpt, hkk, h2]
    · simp only [updAssocWith, if_neg hkk, lookupOpt]
      by_cases hkv : kv.1 = k'
      · simp [hkv]
      · rw [if_neg hkv, if_neg hkv]
        exact ih

/-- C4 amended: a file whose extraction ends with status `failed` is copied
to quarantine *and nevertheless* recorded in the document metadata (with its
content hash and status `failed`), in the extracted-text map, in the
processed and raw document lists, and marked FAILED in the ledger — the
quarantine and the document record are not mutually exclusive. -/
theorem c4_failed_quarantined_and_recorded
    (cfg : IngCfg) (extract : FileRec → ExOutcome) (nrm : String → String)
    (inv : String) (st : IngSt) (X : List String) (f : FileRec)
    (hsup : f.suffix ∈ cfg.supported) (hsize : f.size ≤ cfg.maxSize)
    (hX : f.hash ∉ X)
    (hled : ¬ getDocStatus st.ledger f.hash inv = some LStatus.DONE)
    (text : String) (errMsg : Option String) (crypto : Option String)
    (hex : extract f = .res text "failed" errMsg crypto) :
    f.name ∈ (processFile cfg extract nrm inv st X f).1.quarantined ∧
    lookupOpt (processFile cfg extract nrm inv st X f).1.meta (strTake f.hash 16) =
      some ⟨strTake f.hash 16, f.name, f.hash, "failed", errMsg⟩ ∧
    lookupOpt (processFile cfg extract nrm inv st X f).1.extracted (strTake f.hash 16) =
      some (if text = "" then "" else nrm text) ∧
    (strTake f.hash 16, if text = "" then "" else nrm text) ∈
      (processFile cfg extract nrm inv st X f).1.processed ∧
    (strTake f.hash 16, f.path) ∈ (processFile cfg extract nrm inv st X f).1.raw ∧
    getDocStatus (processFile cfg extract nrm inv st X f).1.ledger f.hash inv =
      some LStatus.FAILED := by
  have hadj : adjStatus text "failed" = "failed" := by
    unfold adjStatus
    split_ifs with h h2
    · exact absurd rfl h.2.2
    · exact absurd rfl h.2.2
    · rfl
  have hsp : ¬ ((adjStatus text "failed") = "success" ∨ (adjStatus text "failed") = "partial") := by
    rw [hadj]
    rintro (h | h) <;> simp at h
  simp only [processFile, if_neg (not_not_intro hsup), if_neg (not_lt.mpr hsize),
    if_neg hX, if_neg hled, hex]
  simp only [if_true, eq_self_iff_true, ite_true]
  rw [if_neg hsp]
  refine ⟨?_, ?_, ?_, ?_, ?_, ?_⟩
  · simp
  · rw [hadj]
    exact lookupOpt_updAssoc_self _ _ _
  · exact lookupOpt_updAssoc_self _ _ _
  · simp
  · simp
  · unfold getDocStatus logDocFailed
    rw [lookupOpt_updAssocWith_self]
    rfl

/-- The concrete failing file for the C4 counterexample. -/
def c4File : FileRec :=
  ⟨"bad.txt", ".txt", 10, "aaaabbbbccccddddeeee", "/uploads/bad.txt"⟩

/-- C4 counterexample: a single file whose extraction fails is *both*
quarantined and present in `document_metadata` / `extracted_text` /
`processed_docs` / `raw_documents` under its hash, refuting the claimed
mutual exclusion. -/
theorem c4_counterexample :
    (ingestRun ⟨[".txt"], 1000⟩ (fun _ => .res "" "failed" (some "boom") none)
        (fun t => t) "inv1" emptyIngSt [c4File]).quarantined = ["bad.txt"] ∧
    (ingestRun ⟨[".txt"], 1000⟩ (fun _ => .res "" "failed" (some "boom") none)
        (fun t => t) "inv1" emptyIngSt [c4File]).meta =
      [("aaaabbbbccccdddd",
        ⟨"aaaabbbbccccdddd", "bad.txt", "aaaabbbbccccddddeeee", "failed", some "boom"⟩)] ∧
    (ingestRun ⟨[".txt"], 1000⟩ (fun _ => .res "" "failed" (some "boom") none)
        (fun t => t) "inv1" emptyIngSt [c4File]).extracted =
      [("aaaabbbbccccdddd", "")] ∧
    (ingestRun ⟨[".txt"], 1000⟩ (fun _ => .res "" "failed" (some "boom") none)
        (fun t => t) "inv1" emptyIngSt [c4File]).processed =
      [("aaaabbbbccccdddd", "")] := by
  refine ⟨?_, ?_, ?_, ?_⟩ <;> decide

/-- Witness for C4 amended at the concrete failing file. -/
theorem c4_failed_quarantined_and_recorded_witness :
    c4File.name ∈
      (processFile ⟨[".txt"], 1000⟩ (fun _ => .res "" "failed" (some "boom") none)
        (fun t => t) "inv1" emptyIngSt [] c4File).1.quarantined ∧
    lookupOpt (processFile ⟨[".txt"], 1000⟩ (fun _ => .res "" "failed" (some "boom") none)
        (fun t => t) "inv1" emptyIngSt [] c4File).1.meta (strTake c4File.hash 16) =
      some ⟨strTake c4File.hash 16, c4File.name, c4File.hash, "failed", some "boom"⟩ ∧
    lookupOpt (processFile ⟨[".txt"], 1000⟩ (fun _ => .res "" "failed" (some "boom") none)
        (fun t => t) "inv1" emptyIngSt [] c4File).1.extracted (strTake c4File.hash 16) =
      some (if ("" : String) = "" then "" else (fun t => t) "") ∧
    (strTake c4File.hash 16, if ("" : String) = "" then "" else (fun t => t) "") ∈
      (processFile ⟨[".txt"], 1000⟩ (fun _ => .res "" "failed" (some "boom") none)
        (fun t => t) "inv1" emptyIngSt [] c4File).1.processed ∧
    (strTake c4File.hash 16, c4File.path) ∈
      (processFile ⟨[".txt"], 1000⟩ (fun _ => .res "" "failed" (some "boom") none)
        (fun t => t) "inv1" emptyIngSt [] c4File).1.raw ∧
    getDocStatus (processFile ⟨[".txt"], 1000⟩ (fun _ => .res "" "failed" (some "boom") none)
        (fun t => t) "inv1" emptyIngSt [] c4File).1.ledger c4File.hash "inv1" =
      some LStatus.FAILED :=
  c4_failed_quarantined_and_recorded ⟨[".txt"], 1000⟩
    (fun _ => .res "" "failed" (some "boom") none) (fun t => t) "inv1"
    emptyIngSt [] c4File (by decide) (by decide) (by decide) (by decide)
    "" (some "boom") none rfl

/-- Whether the per-file body raised (reached the outer handler). -/
def isExcB (extract : FileRec → ExOutcome) (f : FileRec) : Bool :=
  match extract f with
  | .exc _ => true
  | .res _ _ _ _ => false

/-- The raised message (for exception files). -/
def excMsg (extract : FileRec → ExOutcome) (f : FileRec) : String :=
  match extract f with
  | .exc m => m
  | .res _ _ _ _ => ""

/-- The stored text of a processed file. -/
def outText (extract : FileRec → ExOutcome) (nrm : String → String) (f : FileRec) :
    String :=
  match extract f with
  | .res text _ _ _ => if text = "" then "" else nrm text
  | .exc _ => ""

/-- The stored (adjusted) status of a processed file. -/
def outStatus (extract : FileRec → ExOutcome) (f : FileRec) : String :=
  match extract f with
  | .res text status _ _ => adjStatus text status
  | .exc _ => ""

/-- The stored error message of a processed file. -/
def outErr (extract : FileRec → ExOutcome) (f : FileRec) : Option String :=
  match extract f with
  | .res _ _ e _ => e
  | .exc _ => none

/-- The cryptography findings a file contributes. -/
def outCrypto (extract : FileRec → ExOutcome) (f : FileRec) : List String :=
  match extract f with
  | .res _ status _ c => if status = "encrypted" then c.toList else []
  | .exc _ => []

/-- Whether the raw extraction status was `failed` (the quarantine test). -/
def outFailedB (extract : FileRec → ExOutcome) (f : FileRec) : Bool :=
  match extract f with
  | .res _ status _ _ => status = "failed"
  | .exc _ => false

/-- The final ledger row of an attempted file. -/
def entryOf (extract : FileRec → ExOutcome) (f : FileRec) : LStatus × ℕ :=
  match extract f with
  | .exc _ => (LStatus.FAILED, 1)
  | .res text status _ _ =>
    if adjStatus text status = "success" ∨ adjStatus text status = "partial" then
      (LStatus.DONE, 0)
    else (LStatus.FAILED, 1)

/-- The stored metadata record of a processed file. -/
def mkMetaOf (extract : FileRec → ExOutcome) (f : FileRec) : MetaRec :=
  ⟨strTake f.hash 16, f.name, f.hash, outStatus extract f, outErr extract f⟩

/-- A file passes the format and size checks. -/
def admissible (cfg : IngCfg) (f : FileRec) : Prop :=
  f.suffix ∈ cfg.supported ∧ f.size ≤ cfg.maxSize

instance (cfg : IngCfg) (f : FileRec) : Decidable (admissible cfg f) := by
  unfold admissible
  infer_instance

/-- The files the ingestion loop actually attempts (admissible, hash not
yet seen), in order. -/
def attemptedList (cfg : IngCfg) : List FileRec → List String → List FileRec
  | [], _ => []
  | f :: fs, X =>
    if admissible cfg f ∧ f.hash ∉ X then f :: attemptedList cfg fs (X ++ [f.hash])
    else attemptedList cfg fs X

/-- The exact ingestion state produced by attempting the files `A` in order
from the empty state. -/
def stOf (extract : FileRec → ExOutcome) (nrm : String → String) (inv : String)
    (A : List FileRec) : IngSt :=
  { meta := (A.filter (fun f => !isExcB extract f)).map
      (fun f => (strTake f.hash 16, mkMetaOf extract f))
    extracted := (A.filter (fun f => !isExcB extract f)).map
      (fun f => (strTake f.hash 16, outText extract nrm f))
    processed := (A.filter (fun f => !isExcB extract f)).map
      (fun f => (strTake f.hash 16, outText extract nrm f))
    raw := (A.filter (fun f => !isExcB extract f)).map
      (fun f => (strTake f.hash 16, f.path))
    crypto := (A.map (outCrypto extract)).flatten
    quarantined := (A.filter (fun f => outFailedB extract f)).map (fun f => f.name)
    ledger := A.map (fun f => ((f.hash, inv), entryOf extract f))
    elog := (A.filter (fun f => isExcB extract f)).map
      (fun f => "Ingestion doc error " ++ f.name ++ ": " ++ excMsg extract f) }

/-- Fresh keys append in `updAssoc`. -/
theorem updAssoc_not_mem_keys {κ β : Type} [DecidableEq κ]
    {m : List (κ × β)} {k : κ} (h : k ∉ m.map Prod.fst) (v : β) :
    updAssoc m k v = m ++ [(k, v)] := by
  induction m with
  | nil => rfl
  | cons kv rest ih =>
    simp only [List.map_cons, List.mem_cons] at h
    push_neg at h
    have hne : ¬ (kv.1 = k) := fun hh => h.1 (Eq.symm hh)
    simp only [updAssoc, if_neg hne, List.cons_append]
    rw [ih h.2]

/-- Fresh keys append in `updAssocWith`. -/
theorem updAssocWith_not_mem_keys {κ β : Type} [DecidableEq κ]
    {m : List (κ × β)} {k : κ} (h : k ∉ m.map Prod.fst) (f : Option β → β) :
    updAssocWith m k f = m ++ [(k, f none)] := by
  induction m with
  | nil => rfl
  | cons kv rest ih =>
    simp only [List.map_cons, List.mem_cons] at h
    push_neg at h
    have hne : ¬ (kv.1 = k) := fun hh => h.1 (Eq.symm hh)
    simp only [updAssocWith, if_neg hne, List.cons_append]
    rw [ih h.2]

/-- Updating the last (fresh-keyed) binding in place. -/
theorem updAssocWith_append_last {κ β : Type} [DecidableEq κ]
    {m : List (κ × β)} {k : κ} (h : k ∉ m.map Prod.fst) (v : β) (f : Option β → β) :
    updAssocWith (m ++ [(k, v)]) k f = m ++ [(k, f (some v))] := by
  induction m with
  | nil => simp [updAssocWith]
  | cons kv rest ih =>
    simp only [List.map_cons, List.mem_cons] at h
    push_neg at h
    have hne : ¬ (kv.1 = k) := fun hh => h.1 (Eq.symm hh)
    simp only [List.cons_append, updAssocWith, if_neg hne, List.append_eq]
    rw [ih h.2]

/-- Lookup misses keys that are absent. -/
theorem lookupOpt_not_mem_keys {κ β : Type} [DecidableEq κ]
    {m : List (κ × β)} {k : κ} (h : k ∉ m.map Prod.fst) :
    lookupOpt m k = none := by
  induction m with
  | nil => rfl
  | cons kv rest ih =>
    simp only [List.map_cons, List.mem_cons] at h
    push_neg at h
    have hne : ¬ (kv.1 = k) := fun hh => h.1 (Eq.symm hh)
    simp only [lookupOpt, if_neg hne]
    exact ih h.2

/-- A fresh hash is absent from the characterized ledger. -/
theorem getDocStatus_stOf_none (extract : FileRec → ExOutcome) (inv : String)
    (A : List FileRec) (h : String) (hh : h ∉ A.map (fun f => f.hash)) :
    getDocStatus (A.map (fun f => ((f.hash, inv), entryOf extract f))) h inv = none := by
  unfold getDocStatus
  rw [lookupOpt_not_mem_keys]
  · rfl
  · intro hmem
    simp only [List.map_map, List.mem_map, Function.comp] at hmem
    obtain ⟨g, hg, hgk⟩ := hmem
    apply hh
    rw [List.mem_map]
    exact ⟨g, hg, congrArg Prod.fst hgk⟩

/-- A hit in the characterized ledger comes from a member of `A`. -/
theorem getDocStatus_stOf_some (extract : FileRec → ExOutcome) (inv : String) :
    ∀ (A : List FileRec) (h : String) (v : LStatus),
    getDocStatus (A.map (fun f => ((f.hash, inv), entryOf extract f))) h inv = some v →
    ∃ g ∈ A, g.hash = h ∧ (entryOf extract g).1 = v := by
  intro A
  induction A with
  | nil => intro h v hv; simp [getDocStatus, lookupOpt] at hv
  | cons g rest ih =>
    intro h v hv
    simp only [List.map_cons, getDocStatus, lookupOpt] at hv
    by_cases hk : (g.hash, inv) = (h, inv)
    · rw [if_pos hk] at hv
      simp only [Option.map_some'] at hv
      refine ⟨g, List.mem_cons_self _ _, ?_, ?_⟩
      · exact congrArg Prod.fst hk
      · exact Option.some.inj hv
    · rw [if_neg hk] at hv
      obtain ⟨g', hg', hgh, hge⟩ := ih h v hv
      exact ⟨g', List.mem_cons_of_mem _ hg', hgh, hge⟩

/-- The hashes stored in the characterized state. -/
theorem metaHashes_stOf (extract : FileRec → ExOutcome) (nrm : String → String)
    (inv : String) (A : List FileRec) :
    metaHashes (stOf extract nrm inv A) =
      (A.filter (fun f => !isExcB extract f)).map (fun f => f.hash) := by
  unfold metaHashes stOf
  rw [List.map_map]
  rfl

/-- Members of the attempted list are admissible files with fresh hashes. -/
theorem mem_attemptedList (cfg : IngCfg) :
    ∀ (fs : List FileRec) (X : List String) (g : FileRec),
    g ∈ attemptedList cfg fs X → g ∈ fs ∧ admissible cfg g ∧ g.hash ∉ X := by
  intro fs
  induction fs with
  | nil => intro X g hg; cases hg
  | cons f rest ih =>
    intro X g hg
    simp only [attemptedList] at hg
    split_ifs at hg with hc
    · rcases List.mem_cons.mp hg with rfl | hg'
      · exact ⟨List.mem_cons_self _ _, hc.1, hc.2⟩
      · obtain ⟨h1, h2, h3⟩ := ih _ g hg'
        refine ⟨List.mem_cons_of_mem _ h1, h2, fun hmem => h3 ?_⟩
        exact List.mem_append_left _ hmem
    · obtain ⟨h1, h2, h3⟩ := ih _ g hg
      exact ⟨List.mem_cons_of_mem _ h1, h2, h3⟩

/-- Attempted hashes are distinct and disjoint from the seen set. -/
theorem attemptedList_hashes_nodup (cfg : IngCfg) :
    ∀ (fs : List FileRec) (X : List String),
    ((attemptedList cfg fs X).map (fun f => f.hash)).Nodup ∧
    ∀ h ∈ (attemptedList cfg fs X).map (fun f => f.hash), h ∉ X := by
  intro fs
  induction fs with
  | nil => intro X; refine ⟨?_, ?_⟩ <;> simp [attemptedList]
  | cons f rest ih =>
    intro X
    simp only [attemptedList]
    split_ifs with hc
    · obtain ⟨hnd, hdisj⟩ := ih (X ++ [f.hash])
      constructor
      · rw [List.map_cons]
        refine List.nodup_cons.mpr ⟨fun hmem => ?_, hnd⟩
        exact hdisj _ hmem (List.mem_append_right _ (List.mem_singleton.mpr rfl))
      · intro h hmem
        rw [List.map_cons] at hmem
        rcases List.mem_cons.mp hmem with rfl | hmem'
        · exact hc.2
        · intro hX
          exact hdisj _ hmem' (List.mem_append_left _ hX)
    · exact ih X

/-- Every admissible file's hash is seen or attempted. -/
theorem attemptedList_cover (cfg : IngCfg) :
    ∀ (fs : List FileRec) (X : List String) (g : FileRec),
    g ∈ fs → admissible cfg g →
    g.hash ∈ X ∨ g.hash ∈ (attemptedList cfg fs X).map (fun f => f.hash) := by
  intro fs
  induction fs with
  | nil => intro X g hg; cases hg
  | cons f rest ih =>
    intro X g hg hadm
    simp only [attemptedList]
    rcases List.mem_cons.mp hg with rfl | hg'
    · by_cases hc : admissible cfg g ∧ g.hash ∉ X
      · rw [if_pos hc, List.map_cons]
        exact Or.inr (List.mem_cons_self _ _)
      · rw [if_neg hc]
        push_neg at hc
        exact Or.inl (hc hadm)
    · by_cases hc : admissible cfg f ∧ f.hash ∉ X
      · rw [if_pos hc, List.map_cons]
        rcases ih (X ++ [f.hash]) g hg' hadm with h | h
        · rcases List.mem_append.mp h with h1 | h1
          · exact Or.inl h1
          · exact Or.inr (List.mem_cons.mpr (Or.inl (List.mem_singleton.mp h1)))
        · exact Or.inr (List.mem_cons_of_mem _ h)
      · rw [if_neg hc]
        exact ih X g hg' hadm

/-- `first admissible file with hash h`. -/
def firstAdm (cfg : IngCfg) (l : List FileRec) (h : String) : Option FileRec :=
  (l.filter (fun g => admissible cfg g ∧ g.hash = h)).head?

/-- Unfolding `firstAdm` on a cons cell. -/
theorem firstAdm_cons (cfg : IngCfg) (f : FileRec) (l : List FileRec) (h : String) :
    firstAdm cfg (f :: l) h =
      if admissible cfg f ∧ f.hash = h then some f else firstAdm cfg l h := by
  unfold firstAdm
  by_cases hc : admissible cfg f ∧ f.hash = h
  · simp [List.filter_cons, hc]
  · simp [List.filter_cons, hc]

/-- `firstAdm` finds something whenever a qualifying file exists, and what
it finds qualifies. -/
theorem firstAdm_of_mem (cfg : IngCfg) :
    ∀ (l : List FileRec) (g : FileRec), g ∈ l → admissible cfg g →
    ∃ g₀, firstAdm cfg l g.hash = some g₀ ∧ admissible cfg g₀ ∧ g₀.hash = g.hash := by
  intro l
  induction l with
  | nil => intro g hg; cases hg
  | cons f rest ih =>
    intro g hg hadm
    rw [firstAdm_cons]
    by_cases hc : admissible cfg f ∧ f.hash = g.hash
    · rw [if_pos hc]
      exact ⟨f, rfl, hc.1, hc.2⟩
    · rw [if_neg hc]
      rcases List.mem_cons.mp hg with rfl | hg'
      · exact absurd ⟨hadm, rfl⟩ hc
      · exact ih g hg' hadm

/-- What `firstAdm` returns is a member of the attempted list whenever its
hash is unseen. -/
theorem firstAdm_mem_attempted (cfg : IngCfg) :
    ∀ (fs : List FileRec) (X : List String) (h : String) (g₀ : FileRec),
    firstAdm cfg fs h = some g₀ → h ∉ X → g₀ ∈ attemptedList cfg fs X := by
  intro fs
  induction fs with
  | nil => intro X h g₀ hf; simp [firstAdm] at hf
  | cons f rest ih =>
    intro X h g₀ hf hX
    rw [firstAdm_cons] at hf
    simp only [attemptedList]
    split_ifs at hf with hc
    · have hg : g₀ = f := (Option.some.inj hf).symm
      subst hg
      rw [if_pos ⟨hc.1, fun hm => hX (hc.2 ▸ hm)⟩]
      exact List.mem_cons_self _ _
    · by_cases hc2 : admissible cfg f ∧ f.hash ∉ X
      · rw [if_pos hc2]
        refine List.mem_cons_of_mem _ (ih _ h g₀ hf ?_)
        intro hmem
        rcases List.mem_append.mp hmem with hm | hm
        · exact hX hm
        · have : h = f.hash := List.mem_singleton.mp hm
          exact hc ⟨hc2.1, this.symm⟩
      · rw [if_neg hc2]
        exact ih _ h g₀ hf hX

/-- Componentwise equality of ingestion states. -/
theorem ingSt_ext (a b : IngSt) (h1 : a.meta = b.meta) (h2 : a.extracted = b.extracted)
    (h3 : a.processed = b.processed) (h4 : a.raw = b.raw) (h5 : a.crypto = b.crypto)
    (h6 : a.quarantined = b.quarantined) (h7 : a.ledger = b.ledger)
    (h8 : a.elog = b.elog) : a = b := by
  cases a
  cases b
  cases h1
  cases h2
  cases h3
  cases h4
  cases h5
  cases h6
  cases h7
  cases h8
  rfl

/-- A file that fails a pre-check — unsupported format, oversize, hash
already in the state, or (hash, investigation) DONE in the ledger — leaves
the state and the seen-hash set untouched. -/
theorem processFile_skip (cfg : IngCfg) (extract : FileRec → ExOutcome)
    (nrm : String → String) (inv : String) (st : IngSt) (X : List String)
    (f : FileRec)
    (h : ¬ admissible cfg f ∨ f.hash ∈ X ∨
      getDocStatus st.ledger f.hash inv = some LStatus.DONE) :
    processFile cfg extract nrm inv st X f = (st, X) := by
  unfold processFile
  rcases h with h | h | h
  · unfold admissible at h
    push_neg at h
    by_cases hs : f.suffix ∈ cfg.supported
    · rw [if_neg (not_not_intro hs), if_pos (h hs)]
    · rw [if_pos hs]
  · by_cases h1 : f.suffix ∉ cfg.supported
    · rw [if_pos h1]
    · rw [if_neg h1]
      by_cases h2 : cfg.maxSize < f.size
      · rw [if_pos h2]
      · rw [if_neg h2, if_pos h]
  · by_cases h1 : f.suffix ∉ cfg.supported
    · rw [if_pos h1]
    · rw [if_neg h1]
      by_cases h2 : cfg.maxSize < f.size
      · rw [if_pos h2]
      · rw [if_neg h2]
        by_cases h3 : f.hash ∈ X
        · rw [if_pos h3]
        · rw [if_neg h3, if_pos h]

/-- Explicit form of one loop iteration on a file whose body raises. -/
theorem processFile_exc (cfg : IngCfg) (extract : FileRec → ExOutcome)
    (nrm : String → String) (inv : String) (st : IngSt) (X : List String)
    (f : FileRec) (msg : String)
    (hadm : admissible cfg f) (hX : f.hash ∉ X)
    (hnd : ¬ getDocStatus st.ledger f.hash inv = some LStatus.DONE)
    (hex : extract f = .exc msg) :
    processFile cfg extract nrm inv st X f =
      ({ st with
          ledger := logDocFailed (logDocStart st.ledger f.hash inv) f.hash inv
          elog := st.elog ++ ["Ingestion doc error " ++ f.name ++ ": " ++ msg] },
        X ++ [f.hash]) := by
  simp only [processFile, if_neg (not_not_intro hadm.1), if_neg (not_lt.mpr hadm.2),
    if_neg hX, if_neg hnd, hex]

/-- Explicit form of one loop iteration on a file whose extraction returns. -/
theorem processFile_res (cfg : IngCfg) (extract : FileRec → ExOutcome)
    (nrm : String → String) (inv : String) (st : IngSt) (X : List String)
    (f : FileRec) (text status : String) (errMsg : Option String)
    (crypto : Option String)
    (hadm : admissible cfg f) (hX : f.hash ∉ X)
    (hnd : ¬ getDocStatus st.ledger f.hash inv = some LStatus.DONE)
    (hex : extract f = .res text status errMsg crypto) :
    processFile cfg extract nrm inv st X f =
      ({ st with
          crypto := st.crypto ++ (if status = "encrypted" then crypto.toList else [])
          quarantined := st.quarantined ++ (if status = "failed" then [f.name] else [])
          meta := updAssoc st.meta (strTake f.hash 16)
            ⟨strTake f.hash 16, f.name, f.hash, adjStatus text status, errMsg⟩
          extracted := updAssoc st.extracted (strTake f.hash 16)
            (if text = "" then "" else nrm text)
          processed := st.processed ++
            [(strTake f.hash 16, if text = "" then "" else nrm text)]
          raw := st.raw ++ [(strTake f.hash 16, f.path)]
          ledger := if adjStatus text status = "success" ∨ adjStatus text status = "partial"
            then logDocSuccess (logDocStart st.ledger f.hash inv) f.hash inv
            else logDocFailed (logDocStart st.ledger f.hash inv) f.hash inv },
        X ++ [f.hash]) := by
  rcases crypto with _ | c
  · simp only [processFile, if_neg (not_not_intro hadm.1), if_neg (not_lt.mpr hadm.2),
      if_neg hX, if_neg hnd, hex]
    by_cases hq : status = "failed"
    · subst hq
      by_cases hs2 : adjStatus text "failed" = "success" ∨ adjStatus text "failed" = "partial"
      · simp [hs2]
      · simp [hs2]
    · by_cases hs2 : adjStatus text status = "success" ∨ adjStatus text status = "partial"
      · simp [hq, hs2]
      · simp [hq, hs2]
  · simp only [processFile, if_neg (not_not_intro hadm.1), if_neg (not_lt.mpr hadm.2),
      if_neg hX, if_neg hnd, hex]
    by_cases hq : status = "failed"
    · subst hq
      by_cases hs2 : adjStatus text "failed" = "success" ∨ adjStatus text "failed" = "partial"
      · simp [hs2]
      · simp [hs2]
    · by_cases hs2 : adjStatus text status = "success" ∨ adjStatus text status = "partial"
      · simp [hq, hs2]
      · simp [hq, hs2]

/-- Ledger reads after a start-then-failed write pair. -/
theorem getDocStatus_logFailed_logStart (led : Ledger) (h0 inv h : String) :
    getDocStatus (logDocFailed (logDocStart led h0 inv) h0 inv) h inv =
      if h = h0 then some LStatus.FAILED else getDocStatus led h inv := by
  by_cases hh : h = h0
  · subst hh
    unfold getDocStatus logDocFailed
    rw [lookupOpt_updAssocWith_self]
    simp
  · rw [if_neg hh]
    have hk : (h, inv) ≠ (h0, inv) := fun he => hh (congrArg Prod.fst he)
    unfold getDocStatus logDocFailed logDocStart
    rw [lookupOpt_updAssocWith_other _ _ _ _ hk, lookupOpt_updAssocWith_other _ _ _ _ hk]

/-- One attempted iteration from the characterized state extends the
attempted list by the file. -/
theorem processFile_stOf_fresh (cfg : IngCfg) (extract : FileRec → ExOutcome)
    (nrm : String → String) (inv : String) (A : List FileRec) (f : FileRec)
    (hadm : admissible cfg f) (hX : f.hash ∉ A.map (fun g => g.hash))
    (hpre : ∀ g ∈ A, strTake g.hash 16 = strTake f.hash 16 → g.hash = f.hash) :
    processFile cfg extract nrm inv (stOf extract nrm inv A)
        (A.map (fun g => g.hash)) f =
      (stOf extract nrm inv (A ++ [f]),
       (A ++ [f]).map (fun g => g.hash)) := by
  have hkeyled : (f.hash, inv) ∉
      (A.map (fun g => ((g.hash, inv), entryOf extract g))).map Prod.fst := by
    intro hmem
    rw [List.map_map] at hmem
    obtain ⟨g, hg, hgk⟩ := List.mem_map.mp hmem
    exact hX (List.mem_map.mpr ⟨g, hg, congrArg Prod.fst hgk⟩)
  have hledn : getDocStatus (stOf extract nrm inv A).ledger f.hash inv = none :=
    getDocStatus_stOf_none extract inv A f.hash hX
  have hnd : ¬ getDocStatus (stOf extract nrm inv A).ledger f.hash inv =
      some LStatus.DONE := by
    rw [hledn]
    intro hcc
    cases hcc
  have hkeymeta : strTake f.hash 16 ∉
      ((A.filter (fun g => !isExcB extract g)).map
        (fun g => (strTake g.hash 16, mkMetaOf extract g))).map Prod.fst := by
    intro hmem
    rw [List.map_map] at hmem
    obtain ⟨g, hg, hgk⟩ := List.mem_map.mp hmem
    exact hX (List.mem_map.mpr
      ⟨g, (List.mem_filter.mp hg).1, hpre g (List.mem_filter.mp hg).1 hgk⟩)
  have hkeyext : strTake f.hash 16 ∉
      ((A.filter (fun g => !isExcB extract g)).map
        (fun g => (strTake g.hash 16, outText extract nrm g))).map Prod.fst := by
    intro hmem
    rw [List.map_map] at hmem
    obtain ⟨g, hg, hgk⟩ := List.mem_map.mp hmem
    exact hX (List.mem_map.mpr
      ⟨g, (List.mem_filter.mp hg).1, hpre g (List.mem_filter.mp hg).1 hgk⟩)
  have hstart : logDocStart (A.map (fun g => ((g.hash, inv), entryOf extract g)))
        f.hash inv =
      A.map (fun g => ((g.hash, inv), entryOf extract g)) ++
        [((f.hash, inv), (LStatus.PROCESSING, 0))] :=
    (updAssocWith_not_mem_keys hkeyled _).trans rfl
  have hdone : logDocSuccess (A.map (fun g => ((g.hash, inv), entryOf extract g)) ++
        [((f.hash, inv), (LStatus.PROCESSING, 0))]) f.hash inv =
      A.map (fun g => ((g.hash, inv), entryOf extract g)) ++
        [((f.hash, inv), (LStatus.DONE, 0))] :=
    (updAssocWith_append_last hkeyled _ _).trans rfl
  have hfailled : logDocFailed (A.map (fun g => ((g.hash, inv), entryOf extract g)) ++
        [((f.hash, inv), (LStatus.PROCESSING, 0))]) f.hash inv =
      A.map (fun g => ((g.hash, inv), entryOf extract g)) ++
        [((f.hash, inv), (LStatus.FAILED, 1))] :=
    (updAssocWith_append_last hkeyled _ _).trans rfl
  rcases hef : extract f with ⟨text, status, errMsg, crypto⟩ | ⟨msg⟩
  · rw [processFile_res cfg extract nrm inv _ _ f text status errMsg crypto hadm hX
      hnd hef]
    have hiex : isExcB extract f = false := by simp [isExcB, hef]
    have houtT : outText extract nrm f = (if text = "" then "" else nrm text) := by
      simp [outText, hef]
    have houtC : outCrypto extract f =
        (if status = "encrypted" then crypto.toList else []) := by
      simp [outCrypto, hef]
    have hfb : outFailedB extract f = decide (status = "failed") := by
      simp [outFailedB, hef]
    have hmk : mkMetaOf extract f =
        ⟨strTake f.hash 16, f.name, f.hash, adjStatus text status, errMsg⟩ := by
      simp [mkMetaOf, outStatus, outErr, hef]
    have hent : entryOf extract f =
        (if adjStatus text status = "success" ∨ adjStatus text status = "partial"
          then (LStatus.DONE, 0) else (LStatus.FAILED, 1)) := by
      simp [entryOf, hef]
    congr 1
    · apply ingSt_ext
      · simp [stOf, List.filter_append, List.map_append, hiex, hmk,
          updAssoc_not_mem_keys hkeymeta]
      · simp [stOf, List.filter_append, List.map_append, hiex, houtT,
          updAssoc_not_mem_keys hkeyext]
      · simp [stOf, List.filter_append, List.map_append, hiex, houtT]
      · simp [stOf, List.filter_append, List.map_append, hiex]
      · simp [stOf, List.map_append, List.flatten_append, List.flatten_cons,
          List.flatten_nil, List.append_nil, houtC]
      · by_cases hq : status = "failed" <;>
          simp [stOf, List.filter_append, List.map_append, hfb, hq]
      · by_cases hC : adjStatus text status = "success" ∨
            adjStatus text status = "partial" <;>
          simp [stOf, List.map_append, hstart, hdone, hfailled, hent, hC]
      · simp [stOf, List.filter_append, List.map_append, hiex]
    · simp
  · rw [processFile_exc cfg extract nrm inv _ _ f msg hadm hX hnd hef]
    have hiex : isExcB extract f = true := by simp [isExcB, hef]
    have hmsg : excMsg extract f = msg := by simp [excMsg, hef]
    have houtC : outCrypto extract f = [] := by simp [outCrypto, hef]
    have hfb : outFailedB extract f = false := by simp [outFailedB, hef]
    have hent : entryOf extract f = (LStatus.FAILED, 1) := by simp [entryOf, hef]
    congr 1
    · apply ingSt_ext <;>
        simp [stOf, hiex, hmsg, houtC, hfb, hent, hstart, hfailled,
          List.filter_append, List.map_append, List.flatten_append,
          List.flatten_cons, List.flatten_nil, List.append_nil]
    · simp

/-- The whole loop from a characterized state: exactly the admissible
fresh-hash files are attempted, in order. -/
theorem ingest_foldl_char (cfg : IngCfg) (extract : FileRec → ExOutcome)
    (nrm : String → String) (inv : String) :
    ∀ (fs A : List FileRec),
    (∀ g₁ ∈ A ++ fs, ∀ g₂ ∈ A ++ fs,
      strTake g₁.hash 16 = strTake g₂.hash 16 → g₁.hash = g₂.hash) →
    fs.foldl (fun p f => processFile cfg extract nrm inv p.1 p.2 f)
      (stOf extract nrm inv A, A.map (fun g => g.hash)) =
    (stOf extract nrm inv (A ++ attemptedList cfg fs (A.map (fun g => g.hash))),
     (A ++ attemptedList cfg fs (A.map (fun g => g.hash))).map (fun g => g.hash)) := by
  intro fs
  induction fs with
  | nil =>
    intro A hpre
    simp [attemptedList]
  | cons f rest ih =>
    intro A hpre
    rw [List.foldl_cons]
    by_cases hc : admissible cfg f ∧ f.hash ∉ A.map (fun g => g.hash)
    · have hpref : ∀ g ∈ A, strTake g.hash 16 = strTake f.hash 16 →
          g.hash = f.hash := by
        intro g hg he
        exact hpre g (List.mem_append_left _ hg) f
          (List.mem_append_right _ (List.mem_cons_self _ _)) he
      rw [processFile_stOf_fresh cfg extract nrm inv A f hc.1 hc.2 hpref]
      have hpre' : ∀ g₁ ∈ (A ++ [f]) ++ rest, ∀ g₂ ∈ (A ++ [f]) ++ rest,
          strTake g₁.hash 16 = strTake g₂.hash 16 → g₁.hash = g₂.hash := by
        intro g₁ h₁ g₂ h₂
        rw [List.append_assoc, List.singleton_append] at h₁ h₂
        exact hpre g₁ h₁ g₂ h₂
      rw [ih (A ++ [f]) hpre']
      have hX' : (A ++ [f]).map (fun g => g.hash) =
          A.map (fun g => g.hash) ++ [f.hash] := by
        simp
      have hatt : attemptedList cfg (f :: rest) (A.map (fun g => g.hash)) =
          f :: attemptedList cfg rest (A.map (fun g => g.hash) ++ [f.hash]) := by
        simp only [attemptedList, if_pos hc]
      rw [hatt, hX']
      simp [List.append_assoc]
    · push_neg at hc
      have hskip : ¬ admissible cfg f ∨ f.hash ∈ A.map (fun g => g.hash) ∨
          getDocStatus (stOf extract nrm inv A).ledger f.hash inv =
            some LStatus.DONE := by
        by_cases hadm : admissible cfg f
        · exact Or.inr (Or.inl (hc hadm))
        · exact Or.inl hadm
      rw [processFile_skip cfg extract nrm inv _ _ f hskip]
      have hatt : attemptedList cfg (f :: rest) (A.map (fun g => g.hash)) =
          attemptedList cfg rest (A.map (fun g => g.hash)) := by
        simp only [attemptedList]
        rw [if_neg (fun hcc => hcc.2 (hc hcc.1))]
      rw [hatt]
      apply ih A
      intro g₁ h₁ g₂ h₂
      have hmem : ∀ g ∈ A ++ rest, g ∈ A ++ f :: rest := by
        intro g hg
        rcases List.mem_append.mp hg with hg | hg
        · exact List.mem_append_left _ hg
        · exact List.mem_append_right _ (List.mem_cons_of_mem _ hg)
      exact hpre g₁ (hmem g₁ h₁) g₂ (hmem g₂ h₂)

/-- The first run from the empty state is exactly the characterized state of
its attempted list. -/
theorem ingestRun_empty_char (cfg : IngCfg) (extract : FileRec → ExOutcome)
    (nrm : String → String) (inv : String) (files : List FileRec)
    (hpre : ∀ g₁ ∈ files, ∀ g₂ ∈ files,
      strTake g₁.hash 16 = strTake g₂.hash 16 → g₁.hash = g₂.hash) :
    ingestRun cfg extract nrm inv emptyIngSt files =
      stOf extract nrm inv (attemptedList cfg files []) := by
  unfold ingestRun
  have h0 : ((emptyIngSt, metaHashes emptyIngSt) : IngSt × List String) =
      (stOf extract nrm inv [], ([] : List FileRec).map (fun g => g.hash)) := rfl
  rw [h0, ingest_foldl_char cfg extract nrm inv files [] (by simpa using hpre)]
  simp

/-- Equality of the document-store fields of two ingestion states. -/
def docStoreEq (a b : IngSt) : Prop :=
  a.meta = b.meta ∧ a.extracted = b.extracted ∧ a.processed = b.processed ∧
  a.raw = b.raw ∧ a.crypto = b.crypto ∧ a.quarantined = b.quarantined

/-- A DONE ledger row of the characterized state comes from a non-raising
file. -/
theorem entryOf_done_not_exc (extract : FileRec → ExOutcome) (g : FileRec)
    (h : (entryOf extract g).1 = LStatus.DONE) : isExcB extract g = false := by
  rcases hbe : extract g with ⟨t, s, e, c⟩ | ⟨m⟩
  · simp [isExcB, hbe]
  · rw [entryOf] at h
    rw [hbe] at h
    simp at h

/-- Folding the loop a second time over files that are all either seen,
DONE, or bound to raise again leaves the document store untouched. -/
theorem run2_foldl_noop (cfg : IngCfg) (extract : FileRec → ExOutcome)
    (nrm : String → String) (inv : String) (s1 : IngSt) :
    ∀ (rest : List FileRec) (st : IngSt) (X : List String),
    docStoreEq st s1 →
    (∀ h, getDocStatus st.ledger h inv = some LStatus.DONE → h ∈ metaHashes s1) →
    (∀ h ∈ metaHashes s1, h ∈ X) →
    (∀ g ∈ rest, admissible cfg g → isExcB extract g = false → g.hash ∉ X →
      ∃ g₀, firstAdm cfg rest g.hash = some g₀ ∧ isExcB extract g₀ = true) →
    docStoreEq
      (rest.foldl (fun p f => processFile cfg extract nrm inv p.1 p.2 f) (st, X)).1
      s1 := by
  intro rest
  induction rest with
  | nil =>
    intro st X hdoc _ _ _
    exact hdoc
  | cons f l ih =>
    intro st X hdoc hf hsub he
    rw [List.foldl_cons]
    by_cases hadm : admissible cfg f
    · by_cases hXf : f.hash ∈ X
      · rw [processFile_skip cfg extract nrm inv st X f (Or.inr (Or.inl hXf))]
        apply ih st X hdoc hf hsub
        intro g hg hga hgx hgX
        obtain ⟨g₀, h1, h2⟩ := he g (List.mem_cons_of_mem _ hg) hga hgx hgX
        rw [firstAdm_cons, if_neg
          (fun hcc : admissible cfg f ∧ f.hash = g.hash => hgX (hcc.2 ▸ hXf))] at h1
        exact ⟨g₀, h1, h2⟩
      · have hnd : ¬ getDocStatus st.ledger f.hash inv = some LStatus.DONE := by
          intro hD
          exact hXf (hsub _ (hf _ hD))
        have hexc : isExcB extract f = true := by
          cases hbv : isExcB extract f
          · obtain ⟨g₀, h1, h2⟩ := he f (List.mem_cons_self _ _) hadm hbv hXf
            rw [firstAdm_cons, if_pos ⟨hadm, rfl⟩] at h1
            obtain rfl : f = g₀ := Option.some.inj h1
            exact absurd h2 (by rw [hbv]; exact Bool.false_ne_true)
          · rfl
        have hmsgE : ∃ msg, extract f = ExOutcome.exc msg := by
          rcases hbe : extract f with ⟨t, s, e, c⟩ | ⟨m⟩
          · simp [isExcB, hbe] at hexc
          · exact ⟨m, rfl⟩
        obtain ⟨msg, hmsg⟩ := hmsgE
        rw [processFile_exc cfg extract nrm inv st X f msg hadm hXf hnd hmsg]
        refine ih _ _ ?_ ?_ ?_ ?_
        · exact hdoc
        · intro h hD
          have hD' : getDocStatus
              (logDocFailed (logDocStart st.ledger f.hash inv) f.hash inv) h inv =
              some LStatus.DONE := hD
          rw [getDocStatus_logFailed_logStart] at hD'
          by_cases hh : h = f.hash
          · rw [if_pos hh] at hD'
            exact absurd (Option.some.inj hD') (by decide)
          · rw [if_neg hh] at hD'
            exact hf h hD'
        · intro h hh
          exact List.mem_append_left _ (hsub h hh)
        · intro g hg hga hgx hgX'
          have hgX : g.hash ∉ X := fun hm => hgX' (List.mem_append_left _ hm)
          have hgf : g.hash ≠ f.hash := by
            intro hm
            exact hgX' (List.mem_append_right _ (by rw [hm]; exact List.mem_singleton.mpr rfl))
          obtain ⟨g₀, h1, h2⟩ := he g (List.mem_cons_of_mem _ hg) hga hgx hgX
          rw [firstAdm_cons, if_neg (fun hcc => hgf hcc.2.symm)] at h1
          exact ⟨g₀, h1, h2⟩
    · rw [processFile_skip cfg extract nrm inv st X f (Or.inl hadm)]
      apply ih st X hdoc hf hsub
      intro g hg hga hgx hgX
      obtain ⟨g₀, h1, h2⟩ := he g (List.mem_cons_of_mem _ hg) hga hgx hgX
      rw [firstAdm_cons, if_neg (fun hcc => hadm hcc.1)] at h1
      exact ⟨g₀, h1, h2⟩

/-- C3: a file whose content hash is already among the stored documents'
hashes, or whose (hash, investigation) pair is DONE in the ledger, is
skipped outright — the state and the seen-hash set are unchanged, so no
document, extracted-text, processed or raw entry is added for it.
Consequently (given that the 16-character document ids cut from the hashes
do not collide on distinct hashes in the directory) re-running ingestion
over the same uploads leaves the document store unchanged, and the stored
content hashes carry no duplicates. -/
theorem c3_skip_and_idempotent
    (cfg : IngCfg) (extract : FileRec → ExOutcome) (nrm : String → String)
    (inv : String) (files : List FileRec)
    (hpre : ∀ g₁ ∈ files, ∀ g₂ ∈ files,
      strTake g₁.hash 16 = strTake g₂.hash 16 → g₁.hash = g₂.hash) :
    (∀ (st : IngSt) (X : List String) (f : FileRec),
      f.hash ∈ X ∨ getDocStatus st.ledger f.hash inv = some LStatus.DONE →
      processFile cfg extract nrm inv st X f = (st, X)) ∧
    (metaHashes (ingestRun cfg extract nrm inv emptyIngSt files)).Nodup ∧
    (ingestRun cfg extract nrm inv
        (ingestRun cfg extract nrm inv emptyIngSt files) files).meta =
      (ingestRun cfg extract nrm inv emptyIngSt files).meta ∧
    (ingestRun cfg extract nrm inv
        (ingestRun cfg extract nrm inv emptyIngSt files) files).extracted =
      (ingestRun cfg extract nrm inv emptyIngSt files).extracted ∧
    (ingestRun cfg extract nrm inv
        (ingestRun cfg extract nrm inv emptyIngSt files) files).processed =
      (ingestRun cfg extract nrm inv emptyIngSt files).processed ∧
    (ingestRun cfg extract nrm inv
        (ingestRun cfg extract nrm inv emptyIngSt files) files).raw =
      (ingestRun cfg extract nrm inv emptyIngSt files).raw := by
  have hs1 := ingestRun_empty_char cfg extract nrm inv files hpre
  have hnodup : (metaHashes (ingestRun cfg extract nrm inv emptyIngSt files)).Nodup := by
    rw [hs1, metaHashes_stOf]
    exact List.Nodup.sublist
      (List.Sublist.map (fun g : FileRec => g.hash)
        (List.filter_sublist (attemptedList cfg files [])))
      (attemptedList_hashes_nodup cfg files []).1
  have hrun2 : docStoreEq
      (ingestRun cfg extract nrm inv
        (ingestRun cfg extract nrm inv emptyIngSt files) files)
      (ingestRun cfg extract nrm inv emptyIngSt files) := by
    have hunf : ingestRun cfg extract nrm inv
        (ingestRun cfg extract nrm inv emptyIngSt files) files =
        (files.foldl (fun p f => processFile cfg extract nrm inv p.1 p.2 f)
          (ingestRun cfg extract nrm inv emptyIngSt files,
           metaHashes (ingestRun cfg extract nrm inv emptyIngSt files))).1 := rfl
    rw [hunf]
    apply run2_foldl_noop cfg extract nrm inv
      (ingestRun cfg extract nrm inv emptyIngSt files) files
    · exact ⟨rfl, rfl, rfl, rfl, rfl, rfl⟩
    · intro h hD
      rw [hs1] at hD ⊢
      have hD' : getDocStatus
          ((attemptedList cfg files []).map
            (fun g => ((g.hash, inv), entryOf extract g))) h inv =
          some LStatus.DONE := hD
      obtain ⟨g, hgA, hgh, hge⟩ :=
        getDocStatus_stOf_some extract inv _ h LStatus.DONE hD'
      have hx := entryOf_done_not_exc extract g hge
      rw [metaHashes_stOf]
      exact List.mem_map.mpr ⟨g, List.mem_filter.mpr ⟨hgA, by simp [hx]⟩, hgh⟩
    · intro h hh
      exact hh
    · intro g hg hga hgx hgnotin
      obtain ⟨g₀, hfa, hadm₀, hh₀⟩ := firstAdm_of_mem cfg files g hg hga
      have hg₀A : g₀ ∈ attemptedList cfg files [] :=
        firstAdm_mem_attempted cfg files [] g.hash g₀ hfa (List.not_mem_nil _)
      refine ⟨g₀, hfa, ?_⟩
      cases hbv : isExcB extract g₀
      · exfalso
        apply hgnotin
        rw [hs1, metaHashes_stOf]
        exact List.mem_map.mpr ⟨g₀, List.mem_filter.mpr ⟨hg₀A, by simp [hbv]⟩, hh₀⟩
      · rfl
  exact ⟨fun st X f h => h.elim
      (fun h1 => processFile_skip cfg extract nrm inv st X f (Or.inr (Or.inl h1)))
      (fun h2 => processFile_skip cfg extract nrm inv st X f (Or.inr (Or.inr h2))),
    hnodup, hrun2.1, hrun2.2.1, hrun2.2.2.1, hrun2.2.2.2.1⟩

/-- Concrete configuration for the C3 witness. -/
def c3Cfg : IngCfg := ⟨[".txt"], 1000⟩

/-- Concrete extraction oracle for the C3 witness. -/
def c3Extract : FileRec → ExOutcome :=
  fun _ => ExOutcome.res "hello" "success" none none

/-- Concrete directory listing for the C3 witness: two files with the same
content hash. -/
def c3Files : List FileRec :=
  [⟨"a.txt", ".txt", 5, "aaaabbbbccccddddeeee", "/u/a.txt"⟩,
   ⟨"b.txt", ".txt", 5, "aaaabbbbccccddddeeee", "/u/b.txt"⟩]

/-- Witness for C3 at a concrete directory with a duplicated hash. -/
theorem c3_skip_and_idempotent_witness :
    (∀ (st : IngSt) (X : List String) (f : FileRec),
      f.hash ∈ X ∨ getDocStatus st.ledger f.hash "inv1" = some LStatus.DONE →
      processFile c3Cfg c3Extract (fun t => t) "inv1" st X f = (st, X)) ∧
    (metaHashes (ingestRun c3Cfg c3Extract (fun t => t) "inv1" emptyIngSt
      c3Files)).Nodup ∧
    (ingestRun c3Cfg c3Extract (fun t => t) "inv1"
        (ingestRun c3Cfg c3Extract (fun t => t) "inv1" emptyIngSt c3Files)
        c3Files).meta =
      (ingestRun c3Cfg c3Extract (fun t => t) "inv1" emptyIngSt c3Files).meta ∧
    (ingestRun c3Cfg c3Extract (fun t => t) "inv1"
        (ingestRun c3Cfg c3Extract (fun t => t) "inv1" emptyIngSt c3Files)
        c3Files).extracted =
      (ingestRun c3Cfg c3Extract (fun t => t) "inv1" emptyIngSt c3Files).extracted ∧
    (ingestRun c3Cfg c3Extract (fun t => t) "inv1"
        (ingestRun c3Cfg c3Extract (fun t => t) "inv1" emptyIngSt c3Files)
        c3Files).processed =
      (ingestRun c3Cfg c3Extract (fun t => t) "inv1" emptyIngSt c3Files).processed ∧
    (ingestRun c3Cfg c3Extract (fun t => t) "inv1"
        (ingestRun c3Cfg c3Extract (fun t => t) "inv1" emptyIngSt c3Files)
        c3Files).raw =
      (ingestRun c3Cfg c3Extract (fun t => t) "inv1" emptyIngSt c3Files).raw :=
  c3_skip_and_idempotent c3Cfg c3Extract (fun t => t) "inv1" c3Files (by decide)

end Sherlock
